import Mathlib

/-!
Verification of the `icon-kitchen-gitlab-sync` repository.

This file shallowly embeds the pure core of the repository:

* `codec.py` — the fragment codec (`encode_json_to_url_fragment`,
  `decode_url_fragment_to_json`, `build_icon_kitchen_url`, and the two
  base64url helpers), together with models of the Python standard-library
  functions it calls (`json.dumps` / `json.loads` with compact separators,
  UTF-8 encoding/decoding, `base64.b64encode`/`b64decode`, and `gzip`);
* `cli.py` — `_deep_merge`, `_extract_json_from_url`'s fragment
  extraction, and the validation slice of `main`;
* `gitlab_uploader.py` — the control flow of `compress_image_to_size`
  (quality ladder and resize fallback), with the Pillow encoder abstracted
  as a byte-size function.

Python strings are modelled as `List Char`, bytes as `List Nat`
(values < 256), JSON numbers as `Int` (the repository's configuration
documents are integer-valued; floats are outside the model), and Python
dicts as insertion-ordered association lists, matching Python's
dict-ordering guarantees.
-/

namespace IconKitchen

/-- A JSON value as handled by `json.dumps` / `json.loads`: objects are
insertion-ordered association lists (Python dicts preserve insertion
order), numbers are modelled as integers. -/
inductive JsonValue where
  | null : JsonValue
  | bool (b : Bool) : JsonValue
  | int (n : Int) : JsonValue
  | str (s : List Char) : JsonValue
  | arr (xs : List JsonValue) : JsonValue
  | obj (fields : List (List Char × JsonValue)) : JsonValue

/-- Fields of a JSON object / entries of a Python dict, in insertion order. -/
abbrev Fields := List (List Char × JsonValue)

/-- Python `d[key]` / `key in d` on an insertion-ordered dict: the value at
the first matching key. -/
def dictGet : Fields → List Char → Option JsonValue
  | [], _ => none
  | (k, v) :: rest, key => if k = key then some v else dictGet rest key

/-- Python `d[key] = v`: replace the value at an existing key in place
(keeping its position), otherwise append the new entry at the end. -/
def dictSet : Fields → List Char → JsonValue → Fields
  | [], key, v => [(key, v)]
  | (k, w) :: rest, key, v =>
    if k = key then (k, v) :: rest else (k, w) :: dictSet rest key v

/-- Whether a JSON value is an object, i.e. `isinstance(value, Mapping)`
holds for the corresponding Python value. -/
def isObjV : JsonValue → Bool
  | .obj _ => true
  | _ => false

mutual

/-- Embeds `_deep_merge` from `cli.py`: start from a copy of `base`; for
each key of `override` in order, merge recursively when the key is present
in the result and both values are mappings, otherwise set the override
value. -/
def deep_merge (base : Fields) (override : Fields) : Fields :=
  match override with
  | [] => base
  | (key, value) :: rest =>
    deep_merge (dictSet base key (mergeValue (dictGet base key) value)) rest
termination_by sizeOf override
decreasing_by
  all_goals simp_wf
  all_goals omega

/-- The per-key update performed by `_deep_merge`: merge recursively when
the key exists in the result and both the existing and the override value
are mappings, otherwise take the override value. -/
def mergeValue : Option JsonValue → JsonValue → JsonValue
  | some (.obj bf), .obj vf => .obj (deep_merge bf vf)
  | _, v => v
termination_by o v => sizeOf v
decreasing_by
  all_goals simp_wf
  all_goals omega

end

mutual

/-- Well-formedness of a JSON value as the image of a Python value: every
object has pairwise-distinct keys (Python dicts cannot hold duplicates). -/
def wfV : JsonValue → Bool
  | .null => true
  | .bool _ => true
  | .int _ => true
  | .str _ => true
  | .arr xs => wfArr xs
  | .obj fs => decide ((fs.map Prod.fst).Nodup) && wfFields fs

/-- All elements of an array are well-formed. -/
def wfArr : List JsonValue → Bool
  | [] => true
  | x :: xs => wfV x && wfArr xs

/-- All values of an object are well-formed. -/
def wfFields : Fields → Bool
  | [] => true
  | (_, v) :: rest => wfV v && wfFields rest

end

/-- The quality ladder `step_quality` of `compress_image_to_size` in
`gitlab_uploader.py`. -/
def step_quality : List Nat := [100, 95, 90, 85, 80, 70, 60, 50, 40, 30, 10]

/-- One `img.save` call made by `compress_image_to_size`: the dimensions of
the saved image, the `quality` parameter passed in `save_kwargs` (`none`
for PNG, where no quality key is ever set), and the resulting size
`buffer.tell()` in bytes. -/
structure Attempt where
  width : Nat
  height : Nat
  quality : Option Nat
  size : Nat
deriving DecidableEq

/-- Abstraction of the Pillow encoder: byte size produced by `img.save`
for an image of given width and height with the given optional `quality`
parameter (the `optimize` flag is always set by the code and is not a
degree of freedom). The image's pixel content is abstracted away, so the
encoder is an arbitrary parameter of the embedding. -/
def Encoder := Nat → Nat → Option Nat → Nat

/-- The `for q in step_quality` loop of `compress_image_to_size`: encode
at each ladder level (for JPEG, `save_kwargs["quality"] = q`; for PNG no
quality key is set, so every iteration encodes with identical parameters),
breaking after the first attempt whose size fits `max_size`. Returns the
list of attempts actually performed, in order. -/
def qualityAttempts (enc : Encoder) (isJpeg : Bool) (w h maxSize : Nat) :
    List Nat → List Attempt
  | [] => []
  | q :: qs =>
    let qArg : Option Nat := if isJpeg then some q else none
    let sz := enc w h qArg
    if sz ≤ maxSize then [⟨w, h, qArg, sz⟩]
    else ⟨w, h, qArg, sz⟩ :: qualityAttempts enc isJpeg w h maxSize qs

/-- The `while buffer.tell() > max_size and width > 128 and height > 128`
resize loop of `compress_image_to_size`: each round sets
`width = int(width * 0.9)` and `height = int(height * 0.9)` (for image
dimensions, `int(w * 0.9)` equals the integer floor `9 * w / 10`; `int`
truncates toward zero and the float product never crosses an integer
boundary for any realistic dimension), re-encodes the original image at
the new size with the last-used `save_kwargs`, and repeats. Returns the
list of resize-phase attempts in order. -/
def resizeAttempts (enc : Encoder) (qArg : Option Nat) (maxSize curSize w h : Nat) :
    List Attempt :=
  if maxSize < curSize ∧ 128 < w ∧ 128 < h then
    let w' := 9 * w / 10
    let h' := 9 * h / 10
    let sz := enc w' h' qArg
    ⟨w', h', qArg, sz⟩ :: resizeAttempts enc qArg maxSize sz w' h'
  else []
termination_by w
decreasing_by
  simp_wf
  omega

/-- The full sequence of `img.save` calls performed by
`compress_image_to_size`: the quality-ladder loop, followed (only when the
loop exhausted the ladder without fitting, Python's `for`/`else`) by the
resize loop, which starts from the last attempt's buffer size and
`save_kwargs` and from the original image dimensions. -/
def compressAttempts (enc : Encoder) (isJpeg : Bool) (w h maxSize : Nat) :
    List Attempt :=
  let qa := qualityAttempts enc isJpeg w h maxSize step_quality
  match qa.getLast? with
  | some last =>
    if last.size ≤ maxSize then qa
    else qa ++ resizeAttempts enc last.quality maxSize last.size w h
  | none => qa

/-- Target-format selection of `compress_image_to_size`:
`path.suffix.lower() in {".jpg", ".jpeg"}` selects JPEG, anything else
selects PNG. -/
def isJpegExt (ext : List Char) : Bool :=
  decide (ext.map Char.toLower = ".jpg".data ∨ ext.map Char.toLower = ".jpeg".data)

/-- Embeds `compress_image_to_size` from `gitlab_uploader.py`: returns the
final buffer (the last `img.save` attempt), the content type, and whether
the image was converted to RGB (done exactly when targeting JPEG). -/
def compress_image_to_size (enc : Encoder) (ext : List Char) (w h maxSize : Nat) :
    Attempt × List Char × Bool :=
  let isJpeg := isJpegExt ext
  let atts := compressAttempts enc isJpeg w h maxSize
  (atts.getLast?.getD ⟨w, h, none, 0⟩,
   if isJpeg then "image/jpeg".data else "image/png".data,
   isJpeg)

/-- JSON whitespace as skipped by Python's `json` scanner: space, tab,
newline, carriage return. -/
def isJsonWs (c : Char) : Bool :=
  c = ' ' || c = '\t' || c = '\n' || c = '\r'

/-- Skip JSON whitespace. -/
def skipWs (s : List Char) : List Char := s.dropWhile isJsonWs

/-- Decimal digit value of a character, if any. -/
def charDigit (c : Char) : Option Nat :=
  if 48 ≤ c.toNat ∧ c.toNat ≤ 57 then some (c.toNat - 48) else none

/-- The decimal digit character for a value below ten. -/
def digitChar (d : Nat) : Char := Char.ofNat (48 + d)

/-- Hexadecimal digit value of a character (both cases), if any. -/
def hexVal (c : Char) : Option Nat :=
  if 48 ≤ c.toNat ∧ c.toNat ≤ 57 then some (c.toNat - 48)
  else if 97 ≤ c.toNat ∧ c.toNat ≤ 102 then some (c.toNat - 87)
  else if 65 ≤ c.toNat ∧ c.toNat ≤ 70 then some (c.toNat - 55)
  else none

/-- Lowercase hexadecimal digit character, as produced by Python's
`'%04x'` formatting in `json.dumps`. -/
def hexDigitChar (d : Nat) : Char :=
  if d < 10 then Char.ofNat (48 + d) else Char.ofNat (87 + d)

/-- Four lowercase hex digits of a value below 0x10000. -/
def toHex4 (n : Nat) : List Char :=
  [hexDigitChar (n / 4096 % 16), hexDigitChar (n / 256 % 16),
   hexDigitChar (n / 16 % 16), hexDigitChar (n % 16)]

/-- Little-endian decimal digits of a number (empty for zero); the first
argument is fuel bounding the recursion, immaterial once at least the
number itself. -/
def natDigitsLE : Nat → Nat → List Nat
  | 0, _ => []
  | fuel + 1, n => if n = 0 then [] else n % 10 :: natDigitsLE fuel (n / 10)

/-- Decimal text of a natural number, as printed by Python. -/
def dumpNat (n : Nat) : List Char :=
  if n = 0 then ['0'] else ((natDigitsLE n n).reverse).map digitChar

/-- Decimal text of an integer, as printed by Python (`repr` of an int). -/
def dumpInt (n : Int) : List Char :=
  if n < 0 then '-' :: dumpNat n.natAbs else dumpNat n.toNat

/-- Value of a little-endian digit list. -/
def valLE : List Nat → Nat
  | [] => 0
  | d :: l => d + 10 * valLE l

/-- Value of a big-endian digit list, folding left as a parser does. -/
def digitsToNat (ds : List Nat) : Nat := ds.foldl (fun a d => a * 10 + d) 0

/-- Greedily take decimal digits from the front of the input. -/
def takeDigits : List Char → List Nat × List Char
  | [] => ([], [])
  | c :: rest =>
    match charDigit c with
    | some d =>
      let (ds, r) := takeDigits rest
      (d :: ds, r)
    | none => ([], c :: rest)

/-- Parse an unsigned JSON integer literal: `0` alone, or a nonzero
leading digit followed by further digits (Python's json grammar
`(0|[1-9][0-9]*)`; this embedding covers integer-valued JSON only, the
fraction/exponent float forms are outside the model). -/
def parseNumericLit : List Char → Option (Nat × List Char)
  | [] => none
  | c :: rest =>
    match charDigit c with
    | some d =>
      if d = 0 then some (0, rest)
      else
        let (ds, r) := takeDigits rest
        some (digitsToNat (d :: ds), r)
    | none => none

/-- Whether the input starts with a decimal digit (used to state that a
number literal is followed by a non-digit). -/
def headIsDigit : List Char → Bool
  | [] => false
  | c :: _ => (charDigit c).isSome

/-- One character of `json.dumps` string output with `ensure_ascii=True`:
backslash and quote are escaped, the five control characters with short
escapes use them, other printable ASCII is emitted verbatim, and
everything else becomes `\uXXXX` (a surrogate pair for astral
characters). -/
def escChar (c : Char) : List Char :=
  if c = '\\' then ['\\', '\\']
  else if c = '"' then ['\\', '"']
  else if c = Char.ofNat 8 then ['\\', 'b']
  else if c = Char.ofNat 12 then ['\\', 'f']
  else if c = '\n' then ['\\', 'n']
  else if c = '\r' then ['\\', 'r']
  else if c = '\t' then ['\\', 't']
  else if 0x20 ≤ c.toNat ∧ c.toNat ≤ 0x7E then [c]
  else if c.toNat < 0x10000 then '\\' :: 'u' :: toHex4 c.toNat
  else
    '\\' :: 'u' :: toHex4 (0xD800 + (c.toNat - 0x10000) / 0x400) ++
      '\\' :: 'u' :: toHex4 (0xDC00 + (c.toNat - 0x10000) % 0x400)

/-- `json.dumps` escaping of a whole string (without the quotes). -/
def escString : List Char → List Char
  | [] => []
  | c :: s => escChar c ++ escString s

mutual

/-- Embeds `json.dumps(obj, separators=(",", ":"))` as called by
`encode_json_to_url_fragment`: minimal JSON text, keys in insertion
order, `ensure_ascii` escaping. -/
def dumpsVal : JsonValue → List Char
  | .null => "null".data
  | .bool true => "true".data
  | .bool false => "false".data
  | .int n => dumpInt n
  | .str s => '"' :: escString s ++ ['"']
  | .arr xs => '[' :: dumpsArr xs
  | .obj fs => '{' :: dumpsObj fs

/-- Array body after the opening bracket. -/
def dumpsArr : List JsonValue → List Char
  | [] => [']']
  | v :: vs => dumpsVal v ++ dumpsArrTail vs

/-- Array continuation: comma-separated further elements, then the
closing bracket. -/
def dumpsArrTail : List JsonValue → List Char
  | [] => [']']
  | v :: vs => ',' :: dumpsVal v ++ dumpsArrTail vs

/-- Object body after the opening brace. -/
def dumpsObj : Fields → List Char
  | [] => ['}']
  | (k, v) :: fs => '"' :: escString k ++ '"' :: ':' :: dumpsVal v ++ dumpsObjTail fs

/-- Object continuation: comma-separated further members, then the
closing brace. -/
def dumpsObjTail : Fields → List Char
  | [] => ['}']
  | (k, v) :: fs =>
    ',' :: '"' :: escString k ++ '"' :: ':' :: dumpsVal v ++ dumpsObjTail fs

end

/-- Prepend a character to the string being built by the string parser. -/
def strCons (c : Char) : Option (List Char × List Char) → Option (List Char × List Char) :=
  Option.map fun p => (c :: p.1, p.2)

/-- Value of four hexadecimal digit characters, if all are hex digits. -/
def hex4Val (h1 h2 h3 h4 : Char) : Option Nat :=
  match hexVal h1, hexVal h2, hexVal h3, hexVal h4 with
  | some a, some b, some c, some d => some (a * 4096 + b * 256 + c * 16 + d)
  | _, _, _, _ => none

/-- The `\uXXXX` handling of CPython's `py_scanstring`, on the input
after the `\u`: four hex digits give a BMP character; a high surrogate
must be followed by a `\uXXXX` low surrogate and the pair combines into
one astral character. Lone surrogate escapes are rejected here, where
CPython would produce a string containing an unpaired surrogate — such
strings are not representable as Lean `Char` sequences and are
unreachable from encoded well-formed text. -/
def parseUEscape : List Char → Option (Char × List Char)
  | h1 :: h2 :: h3 :: h4 :: r =>
    match hex4Val h1 h2 h3 h4 with
    | none => none
    | some n =>
      if 0xD800 ≤ n ∧ n < 0xDC00 then
        match r with
        | '\\' :: 'u' :: h5 :: h6 :: h7 :: h8 :: r2 =>
          match hex4Val h5 h6 h7 h8 with
          | none => none
          | some m =>
            if 0xDC00 ≤ m ∧ m < 0xE000 then
              some (Char.ofNat (0x10000 + (n - 0xD800) * 0x400 + (m - 0xDC00)), r2)
            else none
        | _ => none
      else if 0xDC00 ≤ n ∧ n < 0xE000 then none
      else some (Char.ofNat n, r)
  | _ => none

/-- One source character of a JSON string, as consumed by CPython's
`py_scanstring` in strict mode: a literal character above 0x1F taken
verbatim (the closing quote is handled by the caller and yields `none`
here), or a backslash escape. -/
def scanOneStrChar : List Char → Option (Char × List Char)
  | [] => none
  | c :: rest =>
    if c = '"' then none
    else if c = '\\' then
      match rest with
      | [] => none
      | e :: r =>
        if e = '"' then some ('"', r)
        else if e = '\\' then some ('\\', r)
        else if e = '/' then some ('/', r)
        else if e = 'b' then some (Char.ofNat 8, r)
        else if e = 'f' then some (Char.ofNat 12, r)
        else if e = 'n' then some ('\n', r)
        else if e = 'r' then some ('\r', r)
        else if e = 't' then some ('\t', r)
        else if e = 'u' then parseUEscape r
        else none
    else if c.toNat < 0x20 then none
    else some (c, rest)

/-- Embeds CPython's `py_scanstring` (strict mode), the `json.loads`
string scanner, on the input after the opening quote: characters are
consumed one at a time by `scanOneStrChar` until the closing quote. The
fuel argument only bounds the loop; every step consumes at least one
input character, so one more than the input length always suffices. -/
def parseStringBody : Nat → List Char → Option (List Char × List Char)
  | 0, _ => none
  | fuel + 1, s =>
    match s with
    | [] => none
    | c :: rest =>
      if c = '"' then some ([], rest)
      else
        match scanOneStrChar (c :: rest) with
        | some (ch, r2) => strCons ch (parseStringBody fuel r2)
        | none => none

mutual

/-- Embeds the `json.loads` scanner for one JSON value: leading
whitespace is skipped, then the input is dispatched on its first
character exactly as CPython's `scan_once` does (strings, objects,
arrays, the three keyword literals, and integer number literals). The
fuel argument only bounds recursion depth; `loads` passes enough for any
input. -/
def parseVal : Nat → List Char → Option (JsonValue × List Char)
  | 0, _ => none
  | fuel + 1, s =>
    match skipWs s with
    | [] => none
    | c :: r =>
      if c = '{' then
        match skipWs r with
        | [] => none
        | c2 :: r2 =>
          if c2 = '}' then some (.obj [], r2)
          else if c2 = '"' then
            match parseStringBody (r2.length + 1) r2 with
            | none => none
            | some (k, rest) =>
              match skipWs rest with
              | ':' :: rest2 =>
                match parseVal fuel rest2 with
                | some (v, rest3) => parseObjTail fuel [(k, v)] rest3
                | none => none
              | _ => none
          else none
      else if c = '[' then
        match skipWs r with
        | [] => none
        | c2 :: r2 =>
          if c2 = ']' then some (.arr [], r2)
          else
            match parseVal fuel (c2 :: r2) with
            | some (v, rest) => parseArrTail fuel [v] rest
            | none => none
      else if c = '"' then
        match parseStringBody (r.length + 1) r with
        | some (str, rest) => some (.str str, rest)
        | none => none
      else if c = 't' then
        match r with
        | 'r' :: 'u' :: 'e' :: rest => some (.bool true, rest)
        | _ => none
      else if c = 'f' then
        match r with
        | 'a' :: 'l' :: 's' :: 'e' :: rest => some (.bool false, rest)
        | _ => none
      else if c = 'n' then
        match r with
        | 'u' :: 'l' :: 'l' :: rest => some (.null, rest)
        | _ => none
      else if c = '-' then
        match parseNumericLit r with
        | some (m, rest) => some (.int (-(m : Int)), rest)
        | none => none
      else
        match parseNumericLit (c :: r) with
        | some (m, rest) => some (.int (m : Int), rest)
        | none => none

/-- Array continuation of the `json.loads` scanner: after each element,
a comma continues and a closing bracket finishes. -/
def parseArrTail : Nat → List JsonValue → List Char →
    Option (JsonValue × List Char)
  | 0, _, _ => none
  | fuel + 1, acc, s =>
    match skipWs s with
    | ']' :: rest => some (.arr acc, rest)
    | ',' :: rest =>
      match parseVal fuel rest with
      | some (v, rest2) => parseArrTail fuel (acc ++ [v]) rest2
      | none => none
    | _ => none

/-- Object continuation of the `json.loads` scanner: after each member,
a comma continues with the next quoted key and a closing brace finishes.
Members accumulate through `dictSet`, mirroring CPython's `dict(pairs)`
construction, where a repeated key keeps its first position and the last
value. -/
def parseObjTail : Nat → Fields → List Char → Option (JsonValue × List Char)
  | 0, _, _ => none
  | fuel + 1, acc, s =>
    match skipWs s with
    | '}' :: rest => some (.obj acc, rest)
    | ',' :: rest =>
      match skipWs rest with
      | '"' :: r =>
        match parseStringBody (r.length + 1) r with
        | none => none
        | some (k, rest2) =>
          match skipWs rest2 with
          | ':' :: rest3 =>
            match parseVal fuel rest3 with
            | some (v, rest4) => parseObjTail fuel (dictSet acc k v) rest4
            | none => none
          | _ => none
      | _ => none
    | _ => none

end

/-- Embeds `json.loads`: parse one value, then require only whitespace
to remain (CPython's "Extra data" check). The fuel passed is one more
than the input length, which the round-trip lemmas show is always
sufficient. -/
def loads (s : List Char) : Option JsonValue :=
  match parseVal (s.length + 1) s with
  | some (v, rest) => if skipWs rest = [] then some v else none
  | none => none

/-- UTF-8 bytes of one character (Python `str.encode("utf-8")`). -/
def utf8EncodeChar (c : Char) : List Nat :=
  let n := c.toNat
  if n < 0x80 then [n]
  else if n < 0x800 then [0xC0 + n / 64, 0x80 + n % 64]
  else if n < 0x10000 then [0xE0 + n / 4096, 0x80 + n / 64 % 64, 0x80 + n % 64]
  else [0xF0 + n / 262144, 0x80 + n / 4096 % 64, 0x80 + n / 64 % 64, 0x80 + n % 64]

/-- UTF-8 encoding of a string (Python `str.encode("utf-8")`). -/
def utf8Encode : List Char → List Nat
  | [] => []
  | c :: s => utf8EncodeChar c ++ utf8Encode s

/-- One character of UTF-8 decoding (Python `bytes.decode("utf-8")`):
lead-byte dispatch, continuation-byte checks, and rejection of overlong
forms, surrogates and out-of-range code points. -/
def utf8DecodeOne : List Nat → Option (Char × List Nat)
  | [] => none
  | b :: rest =>
    if b < 0x80 then some (Char.ofNat b, rest)
    else if b < 0xC0 then none
    else if b < 0xE0 then
      match rest with
      | b2 :: r =>
        if 0x80 ≤ b2 ∧ b2 < 0xC0 then
          if 0x80 ≤ (b - 0xC0) * 64 + (b2 - 0x80) then
            some (Char.ofNat ((b - 0xC0) * 64 + (b2 - 0x80)), r)
          else none
        else none
      | [] => none
    else if b < 0xF0 then
      match rest with
      | b2 :: b3 :: r =>
        if (0x80 ≤ b2 ∧ b2 < 0xC0) ∧ (0x80 ≤ b3 ∧ b3 < 0xC0) then
          if 0x800 ≤ (b - 0xE0) * 4096 + (b2 - 0x80) * 64 + (b3 - 0x80) ∧
              ¬(0xD800 ≤ (b - 0xE0) * 4096 + (b2 - 0x80) * 64 + (b3 - 0x80) ∧
                (b - 0xE0) * 4096 + (b2 - 0x80) * 64 + (b3 - 0x80) < 0xE000) then
            some (Char.ofNat ((b - 0xE0) * 4096 + (b2 - 0x80) * 64 + (b3 - 0x80)), r)
          else none
        else none
      | _ => none
    else if b < 0xF8 then
      match rest with
      | b2 :: b3 :: b4 :: r =>
        if (0x80 ≤ b2 ∧ b2 < 0xC0) ∧ (0x80 ≤ b3 ∧ b3 < 0xC0) ∧
            (0x80 ≤ b4 ∧ b4 < 0xC0) then
          if 0x10000 ≤ (b - 0xF0) * 262144 + (b2 - 0x80) * 4096 +
                (b3 - 0x80) * 64 + (b4 - 0x80) ∧
              (b - 0xF0) * 262144 + (b2 - 0x80) * 4096 +
                (b3 - 0x80) * 64 + (b4 - 0x80) < 0x110000 then
            some (Char.ofNat ((b - 0xF0) * 262144 + (b2 - 0x80) * 4096 +
              (b3 - 0x80) * 64 + (b4 - 0x80)), r)
          else none
        else none
      | _ => none
    else none

/-- UTF-8 decoding loop: decode one character at a time. Every step
consumes at least one byte, so fuel one above the input length always
suffices. -/
def utf8DecodeLoop : Nat → List Nat → Option (List Char)
  | 0, _ => none
  | fuel + 1, bytes =>
    match bytes with
    | [] => some []
    | b :: rest =>
      match utf8DecodeOne (b :: rest) with
      | some (c, r) => (utf8DecodeLoop fuel r).map (c :: ·)
      | none => none

/-- UTF-8 decoding of a byte sequence (Python `bytes.decode("utf-8")`). -/
def utf8Decode (bytes : List Nat) : Option (List Char) :=
  utf8DecodeLoop (bytes.length + 1) bytes

/-- Model of Python's standard-library `gzip.compress` (external to this
repository, called by `codec.py`): the DEFLATE bit-stream itself is not
re-implemented; the model keeps the payload bytes verbatim behind the
two-byte gzip magic header, preserving the only properties the
repository relies on — losslessness and rejection of non-gzip data. -/
def gzipCompress (data : List Nat) : List Nat := 0x1F :: 0x8B :: data

/-- Model of Python's standard-library `gzip.decompress`, the inverse of
`gzipCompress`; fails on input lacking the gzip magic header. -/
def gzipDecompress : List Nat → Option (List Nat)
  | 0x1F :: 0x8B :: rest => some rest
  | _ => none

/-- A standard base64 alphabet character for a sextet value. -/
def b64Char (n : Nat) : Char :=
  if n < 26 then Char.ofNat (65 + n)
  else if n < 52 then Char.ofNat (97 + (n - 26))
  else if n < 62 then Char.ofNat (48 + (n - 52))
  else if n = 62 then '+' else '/'

/-- Sextet value of a standard base64 alphabet character, if any. -/
def b64CharVal (c : Char) : Option Nat :=
  if 65 ≤ c.toNat ∧ c.toNat ≤ 90 then some (c.toNat - 65)
  else if 97 ≤ c.toNat ∧ c.toNat ≤ 122 then some (26 + (c.toNat - 97))
  else if 48 ≤ c.toNat ∧ c.toNat ≤ 57 then some (52 + (c.toNat - 48))
  else if c = '+' then some 62
  else if c = '/' then some 63
  else none

/-- Embeds Python's `base64.b64encode`: three bytes at a time into four
alphabet characters, with `=` padding for a final group of one or two
bytes. -/
def b64encode : List Nat → List Char
  | [] => []
  | [a] => [b64Char (a / 4), b64Char (a % 4 * 16), '=', '=']
  | [a, b] => [b64Char (a / 4), b64Char (a % 4 * 16 + b / 16), b64Char (b % 16 * 4), '=']
  | a :: b :: c :: rest =>
    b64Char (a / 4) :: b64Char (a % 4 * 16 + b / 16) ::
      b64Char (b % 16 * 4 + c / 64) :: b64Char (c % 64) :: b64encode rest

/-- Embeds Python's `base64.b64decode` on correctly padded input: four
characters at a time, `=` padding only in the final group. -/
def b64decodeGroups : List Char → Option (List Nat)
  | [] => some []
  | c1 :: c2 :: c3 :: c4 :: rest =>
    match b64CharVal c1, b64CharVal c2 with
    | some v1, some v2 =>
      if c3 = '=' then
        if c4 = '=' ∧ rest = [] then some [v1 * 4 + v2 / 16] else none
      else
        match b64CharVal c3 with
        | some v3 =>
          if c4 = '=' then
            if rest = [] then some [v1 * 4 + v2 / 16, v2 % 16 * 16 + v3 / 4] else none
          else
            match b64CharVal c4 with
            | some v4 =>
              (b64decodeGroups rest).map
                fun tail => (v1 * 4 + v2 / 16) :: (v2 % 16 * 16 + v3 / 4) ::
                  (v3 % 4 * 64 + v4) :: tail
            | none => none
        | none => none
    | _, _ => none
  | _ => none

/-- The url-safe character substitution of `_base64_to_base64url`. -/
def urlMapChar (c : Char) : Char :=
  if c = '+' then '-' else if c = '/' then '_' else c

/-- The inverse substitution of `_base64url_to_bytes`. -/
def urlUnmapChar (c : Char) : Char :=
  if c = '-' then '+' else if c = '_' then '/' else c

/-- Strip all trailing `=` characters (Python `rstrip("=")`). -/
def rstripEq (s : List Char) : List Char :=
  (s.reverse.dropWhile (fun c => c = '=')).reverse

/-- Restore padding: append `=` until the length is a multiple of four
(the `while len(s) % 4` loop of `_base64url_to_bytes`). -/
def padEq (s : List Char) : List Char :=
  s ++ List.replicate ((4 - s.length % 4) % 4) '='

/-- Embeds `_base64_to_base64url` from `codec.py`: standard base64, then
`+`→`-`, `/`→`_`, and trailing padding stripped. -/
def base64_to_base64url (data : List Nat) : List Char :=
  rstripEq ((b64encode data).map urlMapChar)

/-- Embeds `_base64url_to_bytes` from `codec.py`: `-`→`+`, `_`→`/`,
padding restored to a multiple of four, then standard base64 decoding. -/
def base64url_to_bytes (s : List Char) : Option (List Nat) :=
  b64decodeGroups (padEq (s.map urlUnmapChar))

/-- Embeds `encode_json_to_url_fragment` from `codec.py`: a string input
is compressed verbatim (the `isinstance(obj, str)` branch), anything else
is serialized by `json.dumps(obj, separators=(",", ":"))`; the UTF-8
bytes are gzip-compressed and base64url-encoded without padding. -/
def encode_json_to_url_fragment (obj : JsonValue) : List Char :=
  let json_str : List Char :=
    match obj with
    | .str s => s
    | _ => dumpsVal obj
  base64_to_base64url (gzipCompress (utf8Encode json_str))

/-- The `gzip.decompress(raw).decode("utf-8")` step of
`decode_url_fragment_to_json`. -/
def decompressText (raw : List Nat) : Option (List Char) :=
  (gzipDecompress raw).bind utf8Decode

/-- Embeds `decode_url_fragment_to_json` from `codec.py`: base64url to
bytes, gzip-decompress and UTF-8-decode, then `json.loads`; any stage's
failure is the failure of the whole (a raised exception in Python). -/
def decode_url_fragment_to_json (fragment : List Char) : Option JsonValue :=
  (base64url_to_bytes fragment).bind fun raw =>
    (decompressText raw).bind fun text => loads text

/-- Embeds `build_icon_kitchen_url` from `codec.py`. -/
def build_icon_kitchen_url (fragment : List Char) : List Char :=
  "https://icon.kitchen/i/".data ++ fragment

/-- The fragment slicing of `_extract_json_from_url` in `cli.py`: the
text after the first occurrence of `/i/` (`url.split("/i/", 1)[1]`),
scanning left to right. -/
def afterFirstI : List Char → Option (List Char)
  | [] => none
  | c :: rest =>
    if (c :: rest).take 3 = ['/', 'i', '/'] then some (rest.drop 2)
    else afterFirstI rest

/-- The query/fragment trimming of `_extract_json_from_url`:
`fragment.split("?")[0].split("#")[0]`. -/
def stopAtQueryOrHash (s : List Char) : List Char :=
  (s.takeWhile fun c => c != '?').takeWhile fun c => c != '#'

/-- Fragment extraction of `_extract_json_from_url`: requires `/i/` in
the URL, takes what follows its first occurrence up to the first `?`,
then up to the first `#`. -/
def extract_fragment_from_url (url : List Char) : Option (List Char) :=
  (afterFirstI url).map stopAtQueryOrHash

/-- ASCII whitespace stripped by Python's `str.strip()` (the full Python
set also covers non-ASCII Unicode whitespace, which configuration names
do not contain). -/
def pyWhitespace (c : Char) : Bool :=
  c = ' ' || c = '\t' || c = '\n' || c = '\r' ||
    c = Char.ofNat 11 || c = Char.ofNat 12

/-- Python `str.strip()`: drop whitespace from both ends. -/
def pyStrip (s : List Char) : List Char :=
  ((s.dropWhile pyWhitespace).reverse.dropWhile pyWhitespace).reverse

/-- Why one item of the configuration document is rejected by `main`. -/
inductive ItemErr where
  | notObject : ItemErr
  | badName : ItemErr
  | noOverrides : ItemErr
deriving DecidableEq

/-- The per-item validation of `main` in `cli.py`: the item must be a
mapping, its `name` must be a string that is non-empty after stripping,
and at least one key besides `name` must remain; on success returns the
stripped name and the override fields in order. -/
def checkItem (item : JsonValue) : Except ItemErr (List Char × Fields) :=
  match item with
  | .obj fields =>
    match dictGet fields "name".data with
    | some (.str rawName) =>
      if pyStrip rawName = [] then .error .badName
      else
        match fields.filter fun kv => decide (kv.1 ≠ "name".data) with
        | [] => .error .noOverrides
        | ov => .ok (pyStrip rawName, ov)
    | _ => .error .badName
  | _ => .error .notObject

/-- Whether an item passes `checkItem`. -/
def itemOk (item : JsonValue) : Bool :=
  match checkItem item with
  | .ok _ => true
  | .error _ => false

/-- The validation loop of `main`: items are checked in order and the
first failure aborts with its index, before any URL is built. -/
def validateItems : List JsonValue → Except (Nat × ItemErr) (List (List Char × Fields))
  | [] => .ok []
  | it :: rest =>
    match checkItem it with
    | .error e => .error (0, e)
    | .ok p =>
      match validateItems rest with
      | .error (i, e) => .error (i + 1, e)
      | .ok ps => .ok (p :: ps)

/-- A fatal error of the document-processing slice of `main`. -/
inductive CliErr where
  | noTemplate : CliErr
  | noItems : CliErr
  | item (index : Nat) (err : ItemErr) : CliErr
deriving DecidableEq

/-- Embeds the pure document-processing slice of `main` in `cli.py`:
require a `template` object and a non-empty `items` array, validate every
item (failing fast with the offending index), and only then build one
icon.kitchen URL per item from the merged configuration. -/
def processDocument (doc : Fields) : Except CliErr (List (List Char)) :=
  match dictGet doc "template".data with
  | some (.obj tmpl) =>
    match dictGet doc "items".data with
    | some (.arr items) =>
      if items.isEmpty then .error .noItems
      else
        match validateItems items with
        | .error (i, e) => .error (.item i e)
        | .ok pairs =>
          .ok (pairs.map fun p =>
            build_icon_kitchen_url (encode_json_to_url_fragment
              (.obj (deep_merge tmpl p.2))))
    | _ => .error .noItems
  | _ => .error .noTemplate

/-- The round-trip statement for one JSON value: its `json.dumps` text,
followed by any remainder not starting with a digit, parses back to the
value and the remainder, given fuel beyond the input length. -/
def RTStmt (x : JsonValue) : Prop :=
  ∀ (fuel : Nat) (rest : List Char),
    (dumpsVal x ++ rest).length + 1 ≤ fuel → headIsDigit rest = false →
    parseVal fuel (dumpsVal x ++ rest) = some (x, rest)

theorem mergeValue_obj_obj (bf vf : Fields) :
    mergeValue (some (.obj bf)) (.obj vf) = .obj (deep_merge bf vf) := by
  rw [mergeValue.eq_def]

theorem mergeValue_of_not_obj (o : Option JsonValue) (v : JsonValue)
    (h : isObjV v = false) : mergeValue o v = v := by
  rw [mergeValue.eq_def]
  rcases o with _ | w
  · rfl
  · cases w <;> cases v <;> first | rfl | simp [isObjV] at h

theorem mergeValue_of_base_not_obj (w : JsonValue) (v : JsonValue)
    (h : isObjV w = false) : mergeValue (some w) v = v := by
  rw [mergeValue.eq_def]
  cases w <;> cases v <;> first | rfl | simp [isObjV] at h

theorem mergeValue_of_base_none (v : JsonValue) : mergeValue none v = v := by
  rw [mergeValue.eq_def]

theorem deep_merge_nil (base : Fields) : deep_merge base [] = base := by
  rw [deep_merge]

theorem deep_merge_cons (base : Fields) (k : List Char) (v : JsonValue) (rest : Fields) :
    deep_merge base ((k, v) :: rest) =
      deep_merge (dictSet base k (mergeValue (dictGet base k) v)) rest := by
  rw [deep_merge]

theorem dictGet_dictSet_self (fs : Fields) (k : List Char) (v : JsonValue) :
    dictGet (dictSet fs k v) k = some v := by
  induction fs with
  | nil => simp [dictSet, dictGet]
  | cons kv rest ih =>
    obtain ⟨k0, v0⟩ := kv
    by_cases h : k0 = k
    · simp [dictSet, dictGet, h]
    · simp [dictSet, dictGet, h, ih]

theorem dictGet_dictSet_ne (fs : Fields) (k k' : List Char) (v : JsonValue)
    (h : k ≠ k') : dictGet (dictSet fs k v) k' = dictGet fs k' := by
  induction fs with
  | nil => simp [dictSet, dictGet, h]
  | cons kv rest ih =>
    obtain ⟨k0, v0⟩ := kv
    by_cases h0 : k0 = k
    · subst h0
      simp [dictSet, dictGet, h]
    · simp [dictSet, dictGet, h0, ih]

theorem dictGet_eq_none_of_not_mem (fs : Fields) (k : List Char)
    (h : k ∉ fs.map Prod.fst) : dictGet fs k = none := by
  induction fs with
  | nil => simp [dictGet]
  | cons kv rest ih =>
    obtain ⟨k0, v0⟩ := kv
    simp only [List.map_cons, List.mem_cons] at h
    push_neg at h
    simp [dictGet, Ne.symm h.1, ih h.2]

theorem dictSet_eq_of_dictGet (fs : Fields) (k : List Char) (v : JsonValue)
    (h : dictGet fs k = some v) : dictSet fs k v = fs := by
  induction fs with
  | nil => simp [dictGet] at h
  | cons kv rest ih =>
    obtain ⟨k0, v0⟩ := kv
    by_cases h0 : k0 = k
    · subst h0
      simp [dictGet] at h
      simp [dictSet, h]
    · simp [dictGet, h0] at h
      simp [dictSet, h0, ih h]

theorem dictGet_of_mem_of_nodup (fs : Fields) (kv : List Char × JsonValue)
    (hmem : kv ∈ fs) (hnd : (fs.map Prod.fst).Nodup) :
    dictGet fs kv.1 = some kv.2 := by
  induction fs with
  | nil => simp at hmem
  | cons kv0 rest ih =>
    obtain ⟨k0, v0⟩ := kv0
    simp only [List.map_cons, List.nodup_cons] at hnd
    rcases List.mem_cons.mp hmem with h | h
    · subst h
      simp [dictGet]
    · have hk : k0 ≠ kv.1 := by
        intro he
        exact hnd.1 (he ▸ List.mem_map_of_mem Prod.fst h)
      simp [dictGet, hk, ih h hnd.2]

/-- Key-by-key characterisation of `_deep_merge`: keys absent from the
override keep their base value; keys present in the override get the
override value, except when both sides hold objects, in which case the
objects are merged recursively. -/
theorem dictGet_deep_merge (ov : Fields) : ∀ (base : Fields) (k : List Char),
    (ov.map Prod.fst).Nodup →
    dictGet (deep_merge base ov) k =
      match dictGet ov k with
      | none => dictGet base k
      | some v => some (mergeValue (dictGet base k) v) := by
  induction ov with
  | nil =>
    intro base k _
    simp [deep_merge_nil, dictGet]
  | cons kv rest ih =>
    intro base k hnd
    obtain ⟨k0, v0⟩ := kv
    simp only [List.map_cons, List.nodup_cons] at hnd
    rw [deep_merge_cons, ih _ _ hnd.2]
    by_cases hk : k0 = k
    · subst hk
      have hrest : dictGet rest k0 = none :=
        dictGet_eq_none_of_not_mem _ _ hnd.1
      simp [dictGet, hrest, dictGet_dictSet_self]
    · simp [dictGet, hk, dictGet_dictSet_ne _ _ _ _ hk]

theorem deep_merge_absorb : ∀ (pending fs : Fields),
    (∀ kv ∈ pending, dictGet fs kv.1 = some kv.2) →
    (∀ kv ∈ pending, ∀ vf, kv.2 = JsonValue.obj vf → deep_merge vf vf = vf) →
    deep_merge fs pending = fs := by
  intro pending
  induction pending with
  | nil =>
    intro fs _ _
    exact deep_merge_nil fs
  | cons kv rest ih =>
    intro fs hget hself
    obtain ⟨k, v⟩ := kv
    have hgv : dictGet fs k = some v := hget _ (List.mem_cons_self _ _)
    have hmerged : mergeValue (dictGet fs k) v = v := by
      rw [hgv]
      match v with
      | .null | .bool _ | .int _ | .str _ | .arr _ => exact mergeValue_of_not_obj _ _ rfl
      | .obj vf =>
        have := hself _ (List.mem_cons_self _ _) vf rfl
        rw [mergeValue_obj_obj, this]
    rw [deep_merge_cons, hmerged, dictSet_eq_of_dictGet _ _ _ hgv]
    exact ih fs (fun kv h => hget kv (List.mem_cons_of_mem _ h))
      (fun kv h => hself kv (List.mem_cons_of_mem _ h))

theorem wfV_of_mem_fields : ∀ (fs : Fields) (kv : List Char × JsonValue),
    wfFields fs = true → kv ∈ fs → wfV kv.2 = true := by
  intro fs
  induction fs with
  | nil =>
    intro kv _ hmem
    simp at hmem
  | cons kv0 rest ih =>
    intro kv hwf hmem
    obtain ⟨k0, v0⟩ := kv0
    rw [wfFields] at hwf
    simp only [Bool.and_eq_true] at hwf
    rcases List.mem_cons.mp hmem with he | he
    · subst he
      exact hwf.1
    · exact ih kv hwf.2 he

/-- Merging a well-formed object into itself is the identity. -/
theorem deep_merge_self (fs : Fields) (h : wfV (.obj fs) = true) :
    deep_merge fs fs = fs := by
  rw [wfV] at h
  simp only [Bool.and_eq_true, decide_eq_true_eq] at h
  apply deep_merge_absorb
  · intro kv hmem
    exact dictGet_of_mem_of_nodup fs kv hmem h.1
  · intro kv hmem vf hv
    have hwf : wfV kv.2 = true := wfV_of_mem_fields fs kv h.2 hmem
    rw [hv] at hwf
    have hlt : sizeOf vf < sizeOf fs := by
      have h1 : sizeOf kv < sizeOf fs := List.sizeOf_lt_of_mem hmem
      have h2 : sizeOf (JsonValue.obj vf) ≤ sizeOf kv := by
        obtain ⟨k1, v1⟩ := kv
        simp only at hv
        rw [hv]
        simp
      simp at h2
      omega
    exact deep_merge_self vf hwf
termination_by sizeOf fs

theorem qualityAttempts_first_fit (enc : Encoder) (isJpeg : Bool) (w h maxSize : Nat) :
    ∀ (pre : List Nat) (q : Nat) (post : List Nat),
    (∀ p ∈ pre, maxSize < enc w h (if isJpeg then some p else none)) →
    enc w h (if isJpeg then some q else none) ≤ maxSize →
    qualityAttempts enc isJpeg w h maxSize (pre ++ q :: post) =
      pre.map (fun p => ⟨w, h, if isJpeg then some p else none,
        enc w h (if isJpeg then some p else none)⟩) ++
      [⟨w, h, if isJpeg then some q else none,
        enc w h (if isJpeg then some q else none)⟩] := by
  intro pre
  induction pre with
  | nil =>
    intro q post _ hfit
    simp [qualityAttempts, hfit]
  | cons p pre ih =>
    intro q post hbig hfit
    have hp : maxSize < enc w h (if isJpeg then some p else none) :=
      hbig p (List.mem_cons_self _ _)
    have hns : ¬ enc w h (if isJpeg then some p else none) ≤ maxSize := by omega
    rw [List.cons_append, qualityAttempts, if_neg hns]
    rw [ih q post (fun r hr => hbig r (List.mem_cons_of_mem _ hr)) hfit]
    simp

theorem qualityAttempts_all_exceed (enc : Encoder) (isJpeg : Bool) (w h maxSize : Nat) :
    ∀ qs : List Nat,
    (∀ q ∈ qs, maxSize < enc w h (if isJpeg then some q else none)) →
    qualityAttempts enc isJpeg w h maxSize qs =
      qs.map (fun q => ⟨w, h, if isJpeg then some q else none,
        enc w h (if isJpeg then some q else none)⟩) := by
  intro qs
  induction qs with
  | nil => intro _; simp [qualityAttempts]
  | cons q qs ih =>
    intro hbig
    have hq : maxSize < enc w h (if isJpeg then some q else none) :=
      hbig q (List.mem_cons_self _ _)
    have hns : ¬ enc w h (if isJpeg then some q else none) ≤ maxSize := by omega
    rw [qualityAttempts, if_neg hns]
    rw [ih (fun r hr => hbig r (List.mem_cons_of_mem _ hr))]
    simp

theorem qualityAttempts_dims (enc : Encoder) (isJpeg : Bool) (w h maxSize : Nat) :
    ∀ qs : List Nat, ∀ a ∈ qualityAttempts enc isJpeg w h maxSize qs,
    a.width = w ∧ a.height = h := by
  intro qs
  induction qs with
  | nil => intro a ha; simp [qualityAttempts] at ha
  | cons q qs ih =>
    intro a ha
    rw [qualityAttempts] at ha
    by_cases hsz : enc w h (if isJpeg then some q else none) ≤ maxSize
    · rw [if_pos hsz] at ha
      rcases List.mem_singleton.mp ha with rfl
      exact ⟨rfl, rfl⟩
    · rw [if_neg hsz] at ha
      rcases List.mem_cons.mp ha with rfl | ha
      · exact ⟨rfl, rfl⟩
      · exact ih a ha

theorem qualityAttempts_length_le (enc : Encoder) (isJpeg : Bool) (w h maxSize : Nat) :
    ∀ qs : List Nat, (qualityAttempts enc isJpeg w h maxSize qs).length ≤ qs.length := by
  intro qs
  induction qs with
  | nil => simp [qualityAttempts]
  | cons q qs ih =>
    rw [qualityAttempts]
    by_cases hsz : enc w h (if isJpeg then some q else none) ≤ maxSize
    · rw [if_pos hsz]
      simp
    · rw [if_neg hsz]
      simpa using ih

theorem qualityAttempts_ne_nil (enc : Encoder) (isJpeg : Bool) (w h maxSize : Nat)
    (qs : List Nat) (h0 : qs ≠ []) :
    qualityAttempts enc isJpeg w h maxSize qs ≠ [] := by
  match qs with
  | [] => exact absurd rfl h0
  | q :: qs =>
    rw [qualityAttempts]
    by_cases hsz : enc w h (if isJpeg then some q else none) ≤ maxSize
    · rw [if_pos hsz]
      simp
    · rw [if_neg hsz]
      simp

theorem qualityAttempts_last_exceed (enc : Encoder) (isJpeg : Bool) (w h maxSize : Nat) :
    ∀ (qs : List Nat) (last : Attempt),
    (qualityAttempts enc isJpeg w h maxSize qs).getLast? = some last →
    maxSize < last.size →
    ∀ q ∈ qs, maxSize < enc w h (if isJpeg then some q else none) := by
  intro qs
  induction qs with
  | nil => intro last h _ q hq; simp at hq
  | cons q qs ih =>
    intro last hlast hbig r hr
    rw [qualityAttempts] at hlast
    by_cases hsz : enc w h (if isJpeg then some q else none) ≤ maxSize
    · rw [if_pos hsz] at hlast
      simp only [List.getLast?_singleton, Option.some.injEq] at hlast
      rw [← hlast] at hbig
      simp only at hbig
      omega
    · rw [if_neg hsz] at hlast
      rcases List.mem_cons.mp hr with rfl | hr
      · omega
      · rcases hqa : qualityAttempts enc isJpeg w h maxSize qs with _ | ⟨b, l⟩
        · exact absurd hqa (qualityAttempts_ne_nil enc isJpeg w h maxSize qs
            (by rintro rfl; simp at hr))
        · rw [hqa, List.getLast?_cons_cons] at hlast
          exact ih last (by rw [hqa]; exact hlast) hbig r hr

theorem resizeAttempts_pos (enc : Encoder) (qArg : Option Nat)
    (maxSize curSize w h : Nat) (hc : maxSize < curSize ∧ 128 < w ∧ 128 < h) :
    resizeAttempts enc qArg maxSize curSize w h =
      ⟨9 * w / 10, 9 * h / 10, qArg, enc (9 * w / 10) (9 * h / 10) qArg⟩ ::
        resizeAttempts enc qArg maxSize (enc (9 * w / 10) (9 * h / 10) qArg)
          (9 * w / 10) (9 * h / 10) := by
  rw [resizeAttempts, if_pos hc]

theorem resizeAttempts_neg (enc : Encoder) (qArg : Option Nat)
    (maxSize curSize w h : Nat) (hc : ¬(maxSize < curSize ∧ 128 < w ∧ 128 < h)) :
    resizeAttempts enc qArg maxSize curSize w h = [] := by
  rw [resizeAttempts, if_neg hc]

theorem resizeAttempts_eq_nil_iff (enc : Encoder) (qArg : Option Nat)
    (maxSize curSize w h : Nat) :
    resizeAttempts enc qArg maxSize curSize w h = [] ↔
      ¬(maxSize < curSize ∧ 128 < w ∧ 128 < h) := by
  constructor
  · intro hnil hc
    rw [resizeAttempts_pos enc qArg maxSize curSize w h hc] at hnil
    simp at hnil
  · intro hc
    exact resizeAttempts_neg enc qArg maxSize curSize w h hc

theorem resizeAttempts_chain_dims (enc : Encoder) (qArg : Option Nat) (maxSize : Nat) :
    ∀ w, ∀ curSize h sz0,
    List.Chain (fun a b => b.width = 9 * a.width / 10 ∧ b.height = 9 * a.height / 10)
      ⟨w, h, qArg, sz0⟩ (resizeAttempts enc qArg maxSize curSize w h) := by
  intro w
  induction w using Nat.strong_induction_on with
  | _ w ih =>
    intro curSize h sz0
    by_cases hc : maxSize < curSize ∧ 128 < w ∧ 128 < h
    · rw [resizeAttempts_pos enc qArg maxSize curSize w h hc]
      exact List.Chain.cons ⟨rfl, rfl⟩ (ih (9 * w / 10) (by omega) _ _ _)
    · rw [resizeAttempts_neg enc qArg maxSize curSize w h hc]
      exact List.Chain.nil

theorem resizeAttempts_chain_lt (enc : Encoder) (qArg : Option Nat) (maxSize : Nat) :
    ∀ w, ∀ curSize h sz0,
    List.Chain (fun a b => b.width < a.width ∧ b.height < a.height)
      ⟨w, h, qArg, sz0⟩ (resizeAttempts enc qArg maxSize curSize w h) := by
  intro w
  induction w using Nat.strong_induction_on with
  | _ w ih =>
    intro curSize h sz0
    by_cases hc : maxSize < curSize ∧ 128 < w ∧ 128 < h
    · rw [resizeAttempts_pos enc qArg maxSize curSize w h hc]
      exact List.Chain.cons
        ⟨show 9 * w / 10 < w by omega, show 9 * h / 10 < h by omega⟩
        (ih (9 * w / 10) (by omega) _ _ _)
    · rw [resizeAttempts_neg enc qArg maxSize curSize w h hc]
      exact List.Chain.nil

theorem resizeAttempts_dropLast_exceed (enc : Encoder) (qArg : Option Nat) (maxSize : Nat) :
    ∀ w, ∀ curSize h,
    ∀ a ∈ (resizeAttempts enc qArg maxSize curSize w h).dropLast, maxSize < a.size := by
  intro w
  induction w using Nat.strong_induction_on with
  | _ w ih =>
    intro curSize h a ha
    by_cases hc : maxSize < curSize ∧ 128 < w ∧ 128 < h
    · rw [resizeAttempts_pos enc qArg maxSize curSize w h hc] at ha
      rcases htail : resizeAttempts enc qArg maxSize (enc (9 * w / 10) (9 * h / 10) qArg)
          (9 * w / 10) (9 * h / 10) with _ | ⟨b, l⟩
      · rw [htail] at ha
        simp at ha
      · rw [htail, List.dropLast_cons_of_ne_nil (by simp)] at ha
        rcases List.mem_cons.mp ha with rfl | ha
        · have hne : resizeAttempts enc qArg maxSize (enc (9 * w / 10) (9 * h / 10) qArg)
              (9 * w / 10) (9 * h / 10) ≠ [] := by rw [htail]; simp
          rw [Ne, resizeAttempts_eq_nil_iff] at hne
          push_neg at hne
          simpa using hne.1
        · exact ih (9 * w / 10) (by omega) _ _ a (by rw [htail]; exact ha)
    · rw [resizeAttempts_neg enc qArg maxSize curSize w h hc] at ha
      simp at ha

theorem resizeAttempts_quality (enc : Encoder) (qArg : Option Nat) (maxSize : Nat) :
    ∀ w, ∀ curSize h, ∀ a ∈ resizeAttempts enc qArg maxSize curSize w h,
    a.quality = qArg := by
  intro w
  induction w using Nat.strong_induction_on with
  | _ w ih =>
    intro curSize h a ha
    by_cases hc : maxSize < curSize ∧ 128 < w ∧ 128 < h
    · rw [resizeAttempts_pos enc qArg maxSize curSize w h hc] at ha
      rcases List.mem_cons.mp ha with rfl | ha
      · rfl
      · exact ih (9 * w / 10) (by omega) _ _ a ha
    · rw [resizeAttempts_neg enc qArg maxSize curSize w h hc] at ha
      simp at ha

theorem resizeAttempts_getLast (enc : Encoder) (qArg : Option Nat) (maxSize : Nat) :
    ∀ w, ∀ curSize h last,
    (resizeAttempts enc qArg maxSize curSize w h).getLast? = some last →
    last.size ≤ maxSize ∨ last.width ≤ 128 ∨ last.height ≤ 128 := by
  intro w
  induction w using Nat.strong_induction_on with
  | _ w ih =>
    intro curSize h last hlast
    by_cases hc : maxSize < curSize ∧ 128 < w ∧ 128 < h
    · rw [resizeAttempts_pos enc qArg maxSize curSize w h hc] at hlast
      rcases htail : resizeAttempts enc qArg maxSize (enc (9 * w / 10) (9 * h / 10) qArg)
          (9 * w / 10) (9 * h / 10) with _ | ⟨b, l⟩
      · rw [htail] at hlast
        simp only [List.getLast?_singleton, Option.some.injEq] at hlast
        have hstop := (resizeAttempts_eq_nil_iff enc qArg maxSize
          (enc (9 * w / 10) (9 * h / 10) qArg) (9 * w / 10) (9 * h / 10)).mp htail
        push_neg at hstop
        rw [← hlast]
        by_cases hsz : enc (9 * w / 10) (9 * h / 10) qArg ≤ maxSize
        · left
          simpa using hsz
        · right
          have h2 := hstop (by omega)
          simp only
          omega
      · rw [htail, List.getLast?_cons_cons] at hlast
        exact ih (9 * w / 10) (by omega) _ _ last (by rw [htail]; exact hlast)
    · rw [resizeAttempts_neg enc qArg maxSize curSize w h hc] at hlast
      simp at hlast

theorem resizeAttempts_length_le (enc : Encoder) (qArg : Option Nat) (maxSize : Nat) :
    ∀ w, ∀ curSize h, (resizeAttempts enc qArg maxSize curSize w h).length ≤ w := by
  intro w
  induction w using Nat.strong_induction_on with
  | _ w ih =>
    intro curSize h
    by_cases hc : maxSize < curSize ∧ 128 < w ∧ 128 < h
    · rw [resizeAttempts_pos enc qArg maxSize curSize w h hc]
      have h2 := ih (9 * w / 10) (by omega) (enc (9 * w / 10) (9 * h / 10) qArg) (9 * h / 10)
      simp only [List.length_cons]
      omega
    · rw [resizeAttempts_neg enc qArg maxSize curSize w h hc]
      simp

/-- C4 (amended): a `.jpg`/`.jpeg` hint extension selects RGB conversion
and the JPEG target; JPEG encoding tries the quality ladder
[100, 95, 90, 85, 80, 70, 60, 50, 40, 30, 10] in strictly decreasing
order and stops at the first level whose encoded size is at most
`max_bytes`; for PNG no quality parameter is ever passed, so a first
optimizer encode that fits yields exactly one attempt, but an oversized
PNG is re-encoded with identical parameters at every remaining ladder
position (11 attempts in total) before the resize fallback — not exactly
one attempt as claimed. -/
theorem claim_C4 :
    (isJpegExt ".jpg".data = true ∧ isJpegExt ".jpeg".data = true ∧
      isJpegExt ".png".data = false) ∧
    (∀ (enc : Encoder) (ext : List Char) (w h maxSize : Nat),
      (compress_image_to_size enc ext w h maxSize).2.2 = isJpegExt ext) ∧
    step_quality = [100, 95, 90, 85, 80, 70, 60, 50, 40, 30, 10] ∧
    List.Chain' (fun a b => a > b) step_quality ∧
    (∀ (enc : Encoder) (w h maxSize : Nat) (pre : List Nat) (q : Nat) (post : List Nat),
      step_quality = pre ++ q :: post →
      (∀ p ∈ pre, maxSize < enc w h (some p)) →
      enc w h (some q) ≤ maxSize →
      qualityAttempts enc true w h maxSize step_quality =
        pre.map (fun p => ⟨w, h, some p, enc w h (some p)⟩) ++
          [⟨w, h, some q, enc w h (some q)⟩]) ∧
    (∀ (enc : Encoder) (w h maxSize : Nat),
      (∀ q ∈ step_quality, maxSize < enc w h (some q)) →
      qualityAttempts enc true w h maxSize step_quality =
        step_quality.map (fun q => ⟨w, h, some q, enc w h (some q)⟩)) ∧
    (∀ (enc : Encoder) (w h maxSize : Nat), enc w h none ≤ maxSize →
      qualityAttempts enc false w h maxSize step_quality =
        [⟨w, h, none, enc w h none⟩]) ∧
    (∀ (enc : Encoder) (w h maxSize : Nat), maxSize < enc w h none →
      qualityAttempts enc false w h maxSize step_quality =
        List.replicate 11 ⟨w, h, none, enc w h none⟩) := by
  refine ⟨⟨rfl, rfl, rfl⟩, fun _ _ _ _ _ => rfl, rfl, by norm_num [step_quality, List.chain'_cons],
    ?_, ?_, ?_, ?_⟩
  · intro enc w h maxSize pre q post hsq hbig hfit
    rw [hsq]
    have h2 := qualityAttempts_first_fit enc true w h maxSize pre q post
      (by simpa using hbig) (by simpa using hfit)
    simpa using h2
  · intro enc w h maxSize hbig
    have h2 := qualityAttempts_all_exceed enc true w h maxSize step_quality
      (by simpa using hbig)
    simpa using h2
  · intro enc w h maxSize hfit
    have h2 := qualityAttempts_first_fit enc false w h maxSize []
      100 [95, 90, 85, 80, 70, 60, 50, 40, 30, 10] (by simp) (by simpa using hfit)
    simpa [step_quality] using h2
  · intro enc w h maxSize hbig
    have h2 := qualityAttempts_all_exceed enc false w h maxSize step_quality
      (by intro q hq; simpa using hbig)
    rw [h2]
    simp [step_quality, List.replicate]

/-- C4 witness: a concrete JPEG run where quality 100 overshoots a
200-byte budget and quality 95 fits stops after exactly those two
attempts, and a concrete PNG run that fits at once makes one attempt. -/
theorem claim_C4_witness :
    qualityAttempts (fun _ _ qo => if qo = some 100 then 1000 else 150)
        true 5 5 200 step_quality =
      [⟨5, 5, some 100, 1000⟩, ⟨5, 5, some 95, 150⟩] ∧
    qualityAttempts (fun _ _ _ => 100) false 10 10 200 step_quality =
      [⟨10, 10, none, 100⟩] := by
  constructor
  · have h2 := claim_C4.2.2.2.2.1 (fun _ _ qo => if qo = some 100 then 1000 else 150)
      5 5 200 [100] 95 [90, 85, 80, 70, 60, 50, 40, 30, 10] rfl
      (by intro p hp; simp at hp; subst hp; decide) (by decide)
    simpa using h2
  · exact claim_C4.2.2.2.2.2.2.1 (fun _ _ _ => 100) 10 10 200 (by decide)

/-- C4 counterexample: the claim says that for PNG exactly one encode
attempt is made, but an oversized PNG (constant encoder size 1000 against
a budget of 200) is encoded 11 times by the ladder loop. -/
theorem claim_C4_cex :
    (qualityAttempts (fun _ _ _ => 1000) false 100 100 200 step_quality).length = 11 ∧
    (11 : Nat) ≠ 1 := by
  constructor
  · rfl
  · decide

/-- C5 (amended): each resize round multiplies both dimensions by 0.9 and
truncates (`int(width * 0.9)`, the integer floor `9 * w / 10` — not
rounding to the nearest pixel as claimed); successive attempts strictly
decrease both dimensions; the loop produces attempts exactly while the
encoded result exceeds `max_bytes` and both current dimensions exceed the
128-pixel floor, and every attempt except possibly the last still
exceeded `max_bytes` when the loop decided to continue. -/
theorem claim_C5 :
    ∀ (enc : Encoder) (qArg : Option Nat) (maxSize curSize w h : Nat),
    (resizeAttempts enc qArg maxSize curSize w h = [] ↔
      ¬(maxSize < curSize ∧ 128 < w ∧ 128 < h)) ∧
    List.Chain (fun a b => b.width = 9 * a.width / 10 ∧ b.height = 9 * a.height / 10)
      ⟨w, h, qArg, curSize⟩ (resizeAttempts enc qArg maxSize curSize w h) ∧
    List.Chain (fun a b => b.width < a.width ∧ b.height < a.height)
      ⟨w, h, qArg, curSize⟩ (resizeAttempts enc qArg maxSize curSize w h) ∧
    ((resizeAttempts enc qArg maxSize curSize w h).dropLast.all
      fun a => decide (maxSize < a.size)) = true ∧
    ((resizeAttempts enc qArg maxSize curSize w h).all
      fun a => a.quality == qArg) = true := by
  intro enc qArg maxSize curSize w h
  refine ⟨resizeAttempts_eq_nil_iff enc qArg maxSize curSize w h,
    resizeAttempts_chain_dims enc qArg maxSize w curSize h curSize,
    resizeAttempts_chain_lt enc qArg maxSize w curSize h curSize, ?_, ?_⟩
  · rw [List.all_eq_true]
    intro a ha
    simpa using resizeAttempts_dropLast_exceed enc qArg maxSize w curSize h a ha
  · rw [List.all_eq_true]
    intro a ha
    simpa using resizeAttempts_quality enc qArg maxSize w curSize h a ha

/-- C5 counterexample: the claim says dimensions are scaled by 0.9 and
rounded to the nearest integer pixel, but starting from width 131 the
code truncates 117.9 to 117, while rounding to nearest would give 118. -/
theorem claim_C5_cex :
    ((resizeAttempts (fun _ _ _ => 1000) none 200 1000 131 131).head?.map
      Attempt.width) = some 117 ∧
    (9 * 131 + 5) / 10 = 118 ∧ (117 : Nat) ≠ 118 := by
  refine ⟨?_, by decide, by decide⟩
  rw [resizeAttempts_pos _ _ _ _ _ _ (by decide)]
  rfl

/-- C6: `compress_image_to_size` always terminates and returns the last
encode attempt; the attempt sequence is bounded (at most the 11 ladder
positions plus one resize per pixel of width), and the final attempt
either fits the byte budget or has been stopped by the 128-pixel floor on
one of its dimensions — an oversized result is returned rather than
failing. -/
theorem claim_C6 :
    ∀ (enc : Encoder) (ext : List Char) (w h maxSize : Nat),
    ∃ last : Attempt,
      (compressAttempts enc (isJpegExt ext) w h maxSize).getLast? = some last ∧
      (compress_image_to_size enc ext w h maxSize).1 = last ∧
      (last.size ≤ maxSize ∨ last.width ≤ 128 ∨ last.height ≤ 128) ∧
      (compressAttempts enc (isJpegExt ext) w h maxSize).length ≤ 11 + w := by
  intro enc ext w h maxSize
  set isJpeg := isJpegExt ext with hj
  set qa := qualityAttempts enc isJpeg w h maxSize step_quality with hqa
  have hqane : qa ≠ [] :=
    qualityAttempts_ne_nil enc isJpeg w h maxSize step_quality (by simp [step_quality])
  have hqalen : qa.length ≤ 11 :=
    qualityAttempts_length_le enc isJpeg w h maxSize step_quality
  rcases hL : qa.getLast? with _ | last0
  · rw [List.getLast?_eq_none_iff] at hL
    exact absurd hL hqane
  have hcompress : compressAttempts enc isJpeg w h maxSize =
      if last0.size ≤ maxSize then qa
      else qa ++ resizeAttempts enc last0.quality maxSize last0.size w h := by
    rw [compressAttempts, ← hqa, hL]
  have hdims := qualityAttempts_dims enc isJpeg w h maxSize step_quality last0
    (List.mem_of_mem_getLast? hL)
  by_cases hfit : last0.size ≤ maxSize
  · refine ⟨last0, ?_, ?_, Or.inl hfit, ?_⟩
    · rw [hcompress, if_pos hfit]
      exact hL
    · rw [compress_image_to_size, ← hj, hcompress, if_pos hfit, hL]
      rfl
    · rw [hcompress, if_pos hfit]
      omega
  · rcases hR : resizeAttempts enc last0.quality maxSize last0.size w h with _ | ⟨b, l⟩
    · have hstop := (resizeAttempts_eq_nil_iff enc last0.quality maxSize
        last0.size w h).mp hR
      push_neg at hstop
      refine ⟨last0, ?_, ?_, ?_, ?_⟩
      · rw [hcompress, if_neg hfit, hR]
        simpa using hL
      · rw [compress_image_to_size, ← hj, hcompress, if_neg hfit, hR]
        simp [hL]
      · right
        have h2 := hstop (by omega)
        omega
      · rw [hcompress, if_neg hfit, hR]
        simp only [List.append_nil]
        omega
    · have hRne : resizeAttempts enc last0.quality maxSize last0.size w h ≠ [] := by
        rw [hR]
        simp
      rcases hRlast : (resizeAttempts enc last0.quality maxSize last0.size w h).getLast?
        with _ | rlast
      · rw [List.getLast?_eq_none_iff] at hRlast
        exact absurd hRlast hRne
      refine ⟨rlast, ?_, ?_, ?_, ?_⟩
      · rw [hcompress, if_neg hfit, List.getLast?_append_of_ne_nil _ hRne]
        exact hRlast
      · rw [compress_image_to_size, ← hj, hcompress, if_neg hfit,
          List.getLast?_append_of_ne_nil _ hRne, hRlast]
        rfl
      · exact resizeAttempts_getLast enc last0.quality maxSize w last0.size h rlast hRlast
      · rw [hcompress, if_neg hfit]
        have h2 := resizeAttempts_length_le enc last0.quality maxSize w last0.size h
        simp only [List.length_append]
        omega

/-- C2: `_deep_merge` starts from a copy of the base; a key absent from
the override keeps its base value; a key present in the override gets the
override value, except that when the key exists in the result and both
the existing and the override value are JSON objects the two objects are
merged recursively (arrays and scalars are always replaced wholesale);
and the two concrete examples from the specification hold. -/
theorem claim_C2 :
    (∀ (base ov : Fields) (k : List Char), (ov.map Prod.fst).Nodup →
      dictGet (deep_merge base ov) k =
        match dictGet ov k with
        | none => dictGet base k
        | some v => some (mergeValue (dictGet base k) v)) ∧
    (∀ (o : Option JsonValue) (v : JsonValue), isObjV v = false → mergeValue o v = v) ∧
    (∀ (w v : JsonValue), isObjV w = false → mergeValue (some w) v = v) ∧
    (∀ v : JsonValue, mergeValue none v = v) ∧
    (∀ (bf vf : Fields), mergeValue (some (.obj bf)) (.obj vf) = .obj (deep_merge bf vf)) ∧
    deep_merge
        [(['a'], .int 1), (['b'], .obj [(['c'], .int 1), (['d'], .int 2)])]
        [(['b'], .obj [(['c'], .int 9)]), (['e'], .int 5)] =
      [(['a'], .int 1), (['b'], .obj [(['c'], .int 9), (['d'], .int 2)]), (['e'], .int 5)] ∧
    deep_merge [(['a'], .obj [(['x'], .int 1)])] [(['a'], .arr [.int 1, .int 2])] =
      [(['a'], .arr [.int 1, .int 2])] := by
  refine ⟨fun base ov => dictGet_deep_merge ov base, mergeValue_of_not_obj, mergeValue_of_base_not_obj,
    mergeValue_of_base_none, mergeValue_obj_obj, ?_, ?_⟩
  · simp [deep_merge_cons, deep_merge_nil, dictGet, dictSet, mergeValue_obj_obj,
      mergeValue_of_base_none, mergeValue_of_not_obj, mergeValue_of_base_not_obj, isObjV]
  · simp [deep_merge_cons, deep_merge_nil, dictGet, dictSet, mergeValue_obj_obj,
      mergeValue_of_base_none, mergeValue_of_not_obj, mergeValue_of_base_not_obj, isObjV]

/-- C2 witness: the key-by-key characterisation instantiated on a
concrete base and override with distinct keys. -/
theorem claim_C2_witness :
    dictGet (deep_merge [(['a'], JsonValue.int 1)] [(['b'], JsonValue.int 2)]) ['a'] =
      some (JsonValue.int 1) := by
  have h2 := claim_C2.1 [(['a'], JsonValue.int 1)] [(['b'], JsonValue.int 2)] ['a'] (by simp)
  simpa [dictGet] using h2

/-- C3: `_deep_merge` with an empty override returns the base unchanged,
and merging a well-formed object with itself is the identity; the
embedding is a pure function, matching the code, which never mutates its
arguments (it writes only into the fresh `dict(base)` copy). -/
theorem claim_C3 :
    (∀ base : Fields, deep_merge base [] = base) ∧
    (∀ fs : Fields, wfV (.obj fs) = true → deep_merge fs fs = fs) :=
  ⟨deep_merge_nil, deep_merge_self⟩

/-- C3 witness: both identities instantiated on a concrete object. -/
theorem claim_C3_witness :
    deep_merge [(['a'], JsonValue.int 1)] [] = [(['a'], JsonValue.int 1)] ∧
    deep_merge [(['a'], JsonValue.int 1)] [(['a'], JsonValue.int 1)] =
      [(['a'], JsonValue.int 1)] := by
  refine ⟨claim_C3.1 _, claim_C3.2 _ ?_⟩
  simp [wfV, wfFields]

theorem charDigit_digitChar : ∀ d, d < 10 → charDigit (digitChar d) = some d := by
  decide

theorem digitChar_not_special : ∀ d, d < 10 →
    isJsonWs (digitChar d) = false ∧ digitChar d ≠ '{' ∧ digitChar d ≠ '[' ∧
    digitChar d ≠ '"' ∧ digitChar d ≠ 't' ∧ digitChar d ≠ 'f' ∧
    digitChar d ≠ 'n' ∧ digitChar d ≠ '-' ∧ digitChar d ≠ ']' := by
  decide

theorem hexVal_hexDigitChar : ∀ d, d < 16 → hexVal (hexDigitChar d) = some d := by
  decide

theorem digitsToNat_concat (ds : List Nat) (d : Nat) :
    digitsToNat (ds ++ [d]) = 10 * digitsToNat ds + d := by
  simp [digitsToNat, List.foldl_append]
  omega

theorem digitsToNat_reverse (l : List Nat) : digitsToNat l.reverse = valLE l := by
  induction l with
  | nil => rfl
  | cons d l ih =>
    rw [List.reverse_cons, digitsToNat_concat, ih, valLE]
    omega

theorem natDigitsLE_all_lt : ∀ (f n : Nat), ∀ d ∈ natDigitsLE f n, d < 10 := by
  intro f
  induction f with
  | zero => intro n d hd; simp [natDigitsLE] at hd
  | succ f ih =>
    intro n d hd
    rw [natDigitsLE] at hd
    by_cases h0 : n = 0
    · simp [h0] at hd
    · rw [if_neg h0] at hd
      rcases List.mem_cons.mp hd with rfl | hd
      · omega
      · exact ih _ d hd

theorem valLE_natDigitsLE : ∀ (f n : Nat), n ≤ f → valLE (natDigitsLE f n) = n := by
  intro f
  induction f with
  | zero =>
    intro n hn
    interval_cases n
    rfl
  | succ f ih =>
    intro n hn
    rw [natDigitsLE]
    by_cases h0 : n = 0
    · simp [h0, valLE]
    · rw [if_neg h0, valLE, ih (n / 10) (by omega)]
      omega

theorem natDigitsLE_ne_nil : ∀ (f n : Nat), 0 < n → n ≤ f → natDigitsLE f n ≠ [] := by
  intro f n h0 hf
  match f with
  | 0 => omega
  | f + 1 =>
    rw [natDigitsLE, if_neg (by omega)]
    simp

theorem natDigitsLE_getLast_ne_zero : ∀ (f n : Nat), 0 < n → n ≤ f →
    ∀ d, (natDigitsLE f n).getLast? = some d → d ≠ 0 := by
  intro f
  induction f with
  | zero => intro n h0 hf; omega
  | succ f ih =>
    intro n h0 hf d hd
    rw [natDigitsLE, if_neg (by omega)] at hd
    by_cases h10 : n / 10 = 0
    · have : natDigitsLE f (n / 10) = [] := by
        match f with
        | 0 => rfl
        | f + 1 => rw [natDigitsLE, if_pos h10]
      rw [this] at hd
      simp at hd
      omega
    · have hne : natDigitsLE f (n / 10) ≠ [] :=
        natDigitsLE_ne_nil f (n / 10) (by omega) (by omega)
      rcases hlist : natDigitsLE f (n / 10) with _ | ⟨b, l⟩
      · exact absurd hlist hne
      · rw [hlist, List.getLast?_cons_cons] at hd
        exact ih (n / 10) (by omega) (by omega) d (by rw [hlist]; exact hd)

theorem takeDigits_map_append (ds : List Nat) (rest : List Char)
    (hds : ∀ d ∈ ds, d < 10) (hrest : headIsDigit rest = false) :
    takeDigits (ds.map digitChar ++ rest) = (ds, rest) := by
  induction ds with
  | nil =>
    simp only [List.map_nil, List.nil_append]
    match rest with
    | [] => rfl
    | c :: r =>
      rw [headIsDigit] at hrest
      rw [takeDigits]
      rcases h : charDigit c with _ | d
      · rfl
      · rw [h] at hrest
        simp at hrest
  | cons d ds ih =>
    have hd : d < 10 := hds d (List.mem_cons_self _ _)
    simp only [List.map_cons, List.cons_append]
    rw [takeDigits, charDigit_digitChar d hd,
      ih (fun x hx => hds x (List.mem_cons_of_mem _ hx))]

theorem dumpNat_parse (n : Nat) (rest : List Char)
    (hrest : headIsDigit rest = false) :
    parseNumericLit (dumpNat n ++ rest) = some (n, rest) := by
  by_cases h0 : n = 0
  · subst h0
    rw [dumpNat]
    simp only [if_pos rfl, List.cons_append, List.nil_append]
    rfl
  · rw [dumpNat, if_neg h0]
    rcases hrev : (natDigitsLE n n).reverse with _ | ⟨d, ds⟩
    · have hnil : natDigitsLE n n = [] := by
        have h2 := congrArg List.reverse hrev
        simpa using h2
      exact absurd hnil (natDigitsLE_ne_nil n n (by omega) le_rfl)
    · have hmem : ∀ x ∈ d :: ds, x < 10 := by
        intro x hx
        apply natDigitsLE_all_lt n n
        apply List.mem_reverse.mp
        rw [hrev]
        exact hx
      have hd10 : d < 10 := hmem d (List.mem_cons_self _ _)
      have hdne : d ≠ 0 := by
        apply natDigitsLE_getLast_ne_zero n n (by omega) le_rfl
        rw [← List.head?_reverse, hrev]
        rfl
      simp only [List.map_cons, List.cons_append]
      rw [parseNumericLit.eq_def]
      simp only [charDigit_digitChar d hd10, if_neg hdne,
        takeDigits_map_append ds rest (fun x hx => hmem x (List.mem_cons_of_mem _ hx)) hrest]
      have hval : digitsToNat (d :: ds) = n := by
        have h3 : digitsToNat ((natDigitsLE n n).reverse) = n := by
          rw [digitsToNat_reverse, valLE_natDigitsLE n n le_rfl]
        rw [hrev] at h3
        exact h3
      rw [hval]

theorem dumpNat_shape (n : Nat) : ∃ d t, d < 10 ∧ dumpNat n = digitChar d :: t := by
  by_cases h0 : n = 0
  · exact ⟨0, [], by omega, by subst h0; rfl⟩
  · rw [dumpNat, if_neg h0]
    rcases hrev : (natDigitsLE n n).reverse with _ | ⟨d, ds⟩
    · have : natDigitsLE n n = [] := by
        have := congrArg List.reverse hrev
        simpa using this
      exact absurd this (natDigitsLE_ne_nil n n (by omega) le_rfl)
    · refine ⟨d, ds.map digitChar, ?_, by simp⟩
      apply natDigitsLE_all_lt n n
      apply List.mem_reverse.mp
      rw [hrev]
      exact List.mem_cons_self _ _

theorem char_valid_ranges (c : Char) :
    c.toNat < 0xD800 ∨ (0xDFFF < c.toNat ∧ c.toNat < 0x110000) := by
  have h := c.valid
  rcases h with h | h
  · left; exact h
  · right; exact h

theorem hex4_recombine (n : Nat) (h : n < 0x10000) :
    n / 4096 % 16 * 4096 + n / 256 % 16 * 256 + n / 16 % 16 * 16 + n % 16 = n := by
  omega

theorem hex4Val_toHex4 (n : Nat) (h : n < 0x10000) :
    hex4Val (hexDigitChar (n / 4096 % 16)) (hexDigitChar (n / 256 % 16))
      (hexDigitChar (n / 16 % 16)) (hexDigitChar (n % 16)) = some n := by
  rw [hex4Val, hexVal_hexDigitChar _ (by omega), hexVal_hexDigitChar _ (by omega),
    hexVal_hexDigitChar _ (by omega), hexVal_hexDigitChar _ (by omega)]
  simp only [Option.some.injEq]
  omega

theorem escChar_shape (c : Char) :
    ∃ d t, escChar c = d :: t ∧ d ≠ '"' := by
  rw [escChar]
  by_cases h1 : c = '\\'
  · rw [if_pos h1]; exact ⟨_, _, rfl, by decide⟩
  rw [if_neg h1]
  by_cases h2 : c = '"'
  · rw [if_pos h2]; exact ⟨_, _, rfl, by decide⟩
  rw [if_neg h2]
  by_cases h3 : c = Char.ofNat 8
  · rw [if_pos h3]; exact ⟨_, _, rfl, by decide⟩
  rw [if_neg h3]
  by_cases h4 : c = Char.ofNat 12
  · rw [if_pos h4]; exact ⟨_, _, rfl, by decide⟩
  rw [if_neg h4]
  by_cases h5 : c = '\n'
  · rw [if_pos h5]; exact ⟨_, _, rfl, by decide⟩
  rw [if_neg h5]
  by_cases h6 : c = '\r'
  · rw [if_pos h6]; exact ⟨_, _, rfl, by decide⟩
  rw [if_neg h6]
  by_cases h7 : c = '\t'
  · rw [if_pos h7]; exact ⟨_, _, rfl, by decide⟩
  rw [if_neg h7]
  by_cases h8 : 0x20 ≤ c.toNat ∧ c.toNat ≤ 0x7E
  · rw [if_pos h8]
    refine ⟨c, [], rfl, h2⟩
  rw [if_neg h8]
  by_cases h9 : c.toNat < 0x10000
  · rw [if_pos h9]; exact ⟨_, _, rfl, by decide⟩
  · rw [if_neg h9]; exact ⟨_, _, rfl, by decide⟩

theorem scanOne_verbatim (c : Char) (T : List Char) (h1 : ¬ c = '\\')
    (h2 : ¬ c = '"') (h3 : ¬ c.toNat < 0x20) :
    scanOneStrChar (c :: T) = some (c, T) := by
  rw [scanOneStrChar.eq_def]
  simp only []
  rw [if_neg h2, if_neg h1, if_neg h3]

theorem parseUEscape_single (a1 a2 a3 a4 : Char) (r : List Char) (n : Nat)
    (hn : hex4Val a1 a2 a3 a4 = some n) (hs : ¬ (0xD800 ≤ n ∧ n < 0xE000)) :
    parseUEscape (a1 :: a2 :: a3 :: a4 :: r) = some (Char.ofNat n, r) := by
  rw [parseUEscape.eq_def]
  simp only []
  rw [hn]
  simp only []
  rw [if_neg (by omega : ¬ (0xD800 ≤ n ∧ n < 0xDC00)),
    if_neg (by omega : ¬ (0xDC00 ≤ n ∧ n < 0xE000))]

theorem parseUEscape_pair (a1 a2 a3 a4 b1 b2 b3 b4 : Char) (r : List Char)
    (n m : Nat) (hn : hex4Val a1 a2 a3 a4 = some n)
    (hm : hex4Val b1 b2 b3 b4 = some m)
    (hnr : 0xD800 ≤ n ∧ n < 0xDC00) (hmr : 0xDC00 ≤ m ∧ m < 0xE000) :
    parseUEscape (a1 :: a2 :: a3 :: a4 :: '\\' :: 'u' :: b1 :: b2 :: b3 :: b4 :: r) =
      some (Char.ofNat (0x10000 + (n - 0xD800) * 0x400 + (m - 0xDC00)), r) := by
  rw [parseUEscape.eq_def]
  simp only []
  rw [hn]
  simp only []
  rw [if_pos hnr]
  rw [hm]
  simp only []
  rw [if_pos hmr]

theorem parseU_bmp (n : Nat) (T : List Char) (h9 : n < 0x10000)
    (hs : ¬ (0xD800 ≤ n ∧ n < 0xE000)) :
    parseUEscape (toHex4 n ++ T) = some (Char.ofNat n, T) := by
  rw [toHex4]
  simp only [List.cons_append, List.nil_append]
  exact parseUEscape_single _ _ _ _ T n (hex4Val_toHex4 n h9) hs

theorem parseU_astral (n : Nat) (T : List Char) (hlow : 0x10000 ≤ n)
    (hhigh : n < 0x110000) :
    parseUEscape (toHex4 (0xD800 + (n - 0x10000) / 0x400) ++
      '\\' :: 'u' :: toHex4 (0xDC00 + (n - 0x10000) % 0x400) ++ T) =
      some (Char.ofNat n, T) := by
  have hm1 : n - 0x10000 < 0x100000 := by omega
  rw [toHex4, toHex4]
  simp only [List.cons_append, List.nil_append]
  rw [parseUEscape_pair _ _ _ _ _ _ _ _ T
    (0xD800 + (n - 0x10000) / 0x400) (0xDC00 + (n - 0x10000) % 0x400)
    (hex4Val_toHex4 _ (by omega)) (hex4Val_toHex4 _ (by omega))
    (by omega) (by omega)]
  have hcomb : 0x10000 + (0xD800 + (n - 0x10000) / 0x400 - 0xD800) * 0x400 +
      (0xDC00 + (n - 0x10000) % 0x400 - 0xDC00) = n := by omega
  rw [hcomb]

theorem scanOne_u (r : List Char) :
    scanOneStrChar ('\\' :: 'u' :: r) = parseUEscape r := rfl

theorem scanOne_escChar (c : Char) (T : List Char) :
    scanOneStrChar (escChar c ++ T) = some (c, T) := by
  by_cases h1 : c = '\\'
  · subst h1; rfl
  by_cases h2 : c = '"'
  · subst h2; rfl
  by_cases h3 : c = Char.ofNat 8
  · subst h3; rfl
  by_cases h4 : c = Char.ofNat 12
  · subst h4; rfl
  by_cases h5 : c = '\n'
  · subst h5; rfl
  by_cases h6 : c = '\r'
  · subst h6; rfl
  by_cases h7 : c = '\t'
  · subst h7; rfl
  rw [escChar, if_neg h1, if_neg h2, if_neg h3, if_neg h4, if_neg h5, if_neg h6, if_neg h7]
  by_cases h8 : 0x20 ≤ c.toNat ∧ c.toNat ≤ 0x7E
  · rw [if_pos h8]
    rw [show ([c] : List Char) ++ T = c :: T from rfl]
    exact scanOne_verbatim c T h1 h2 (by omega)
  · rw [if_neg h8]
    have hval := char_valid_ranges c
    by_cases h9 : c.toNat < 0x10000
    · rw [if_pos h9]
      simp only [List.cons_append]
      rw [scanOne_u]
      rw [parseU_bmp c.toNat T h9 (by omega), Char.ofNat_toNat]
    · rw [if_neg h9]
      simp only [List.cons_append, List.append_assoc]
      rw [scanOne_u]
      rw [show toHex4 (0xD800 + (c.toNat - 0x10000) / 0x400) ++
          ('\\' :: 'u' :: (toHex4 (0xDC00 + (c.toNat - 0x10000) % 0x400) ++ T)) =
        toHex4 (0xD800 + (c.toNat - 0x10000) / 0x400) ++
          '\\' :: 'u' :: toHex4 (0xDC00 + (c.toNat - 0x10000) % 0x400) ++ T by
        simp [List.append_assoc]]
      rw [parseU_astral c.toNat T (by omega) (by omega), Char.ofNat_toNat]

theorem escChar_length_pos (c : Char) : 0 < (escChar c).length := by
  obtain ⟨d, t, heq, _⟩ := escChar_shape c
  rw [heq]
  simp

theorem parseStringBody_escString : ∀ (s : List Char) (fuel : Nat) (rest : List Char),
    (escString s ++ '"' :: rest).length + 1 ≤ fuel →
    parseStringBody fuel (escString s ++ '"' :: rest) = some (s, rest) := by
  intro s
  induction s with
  | nil =>
    intro fuel rest hfuel
    simp only [escString, List.nil_append] at hfuel ⊢
    match fuel, hfuel with
    | f + 1, _ =>
      rw [parseStringBody]
      rw [if_pos rfl]
  | cons c s ih =>
    intro fuel rest hfuel
    rw [escString, List.append_assoc] at hfuel ⊢
    obtain ⟨d, t, heq, hdq⟩ := escChar_shape c
    match fuel, hfuel with
    | f + 1, hf =>
      rw [heq]
      simp only [List.cons_append]
      rw [parseStringBody]
      rw [if_neg hdq]
      rw [show (d :: (t ++ (escString s ++ '"' :: rest))) =
        (d :: t) ++ (escString s ++ '"' :: rest) from rfl, ← heq]
      rw [scanOne_escChar]
      simp only []
      rw [ih f rest ?_]
      · rfl
      · have hlen := escChar_length_pos c
        rw [heq] at hf hlen
        simp only [List.length_append, List.length_cons] at hf ⊢
        simp only [List.length_cons] at hlen
        omega

theorem skipWs_cons_of_not_ws (c : Char) (r : List Char) (h : isJsonWs c = false) :
    skipWs (c :: r) = c :: r := by
  rw [skipWs, List.dropWhile_cons, h]
  rfl

theorem dumps_head_spec (v : JsonValue) :
    ∃ c t, dumpsVal v = c :: t ∧ isJsonWs c = false ∧ c ≠ ']' := by
  match v with
  | .null => exact ⟨'n', ['u', 'l', 'l'], by rw [dumpsVal], by decide, by decide⟩
  | .bool true => exact ⟨'t', ['r', 'u', 'e'], by rw [dumpsVal], by decide, by decide⟩
  | .bool false => exact ⟨'f', ['a', 'l', 's', 'e'], by rw [dumpsVal], by decide, by decide⟩
  | .str s =>
    exact ⟨'"', escString s ++ ['"'], by rw [dumpsVal]; rfl, by decide, by decide⟩
  | .arr xs => exact ⟨'[', dumpsArr xs, by rw [dumpsVal], by decide, by decide⟩
  | .obj fs => exact ⟨'{', dumpsObj fs, by rw [dumpsVal], by decide, by decide⟩
  | .int n =>
    rw [dumpsVal, dumpInt]
    by_cases hneg : n < 0
    · rw [if_pos hneg]
      exact ⟨'-', dumpNat n.natAbs, rfl, by decide, by decide⟩
    · rw [if_neg hneg]
      obtain ⟨d, t, hd, hshape⟩ := dumpNat_shape n.toNat
      obtain ⟨hws, _, _, _, _, _, _, _, hrb⟩ := digitChar_not_special d hd
      exact ⟨digitChar d, t, hshape, hws, hrb⟩

theorem dumpsVal_length_pos (v : JsonValue) : 0 < (dumpsVal v).length := by
  obtain ⟨c, t, heq, _, _⟩ := dumps_head_spec v
  rw [heq]
  simp

theorem skipWs_dumps (v : JsonValue) (rest : List Char) :
    skipWs (dumpsVal v ++ rest) = dumpsVal v ++ rest := by
  obtain ⟨c, t, heq, hws, _⟩ := dumps_head_spec v
  rw [heq, List.cons_append, skipWs_cons_of_not_ws c _ hws]

theorem headIsDigit_dumpsArrTail (vs : List JsonValue) (rest : List Char) :
    headIsDigit (dumpsArrTail vs ++ rest) = false := by
  match vs with
  | [] => rfl
  | v :: vs => rfl

theorem headIsDigit_dumpsObjTail (fs : Fields) (rest : List Char) :
    headIsDigit (dumpsObjTail fs ++ rest) = false := by
  match fs with
  | [] => rfl
  | (k, v) :: fs => rfl

theorem utf8EncodeChar_shape (c : Char) :
    ∃ b t, utf8EncodeChar c = b :: t := by
  rw [utf8EncodeChar]
  by_cases r1 : c.toNat < 0x80
  · rw [if_pos r1]; exact ⟨_, _, rfl⟩
  rw [if_neg r1]
  by_cases r2 : c.toNat < 0x800
  · rw [if_pos r2]; exact ⟨_, _, rfl⟩
  rw [if_neg r2]
  by_cases r3 : c.toNat < 0x10000
  · rw [if_pos r3]; exact ⟨_, _, rfl⟩
  · rw [if_neg r3]; exact ⟨_, _, rfl⟩

theorem utf8DecodeOne_encodeChar (c : Char) (T : List Nat) :
    utf8DecodeOne (utf8EncodeChar c ++ T) = some (c, T) := by
  rw [utf8EncodeChar]
  have hval := char_valid_ranges c
  by_cases r1 : c.toNat < 0x80
  · rw [if_pos r1]
    simp only [List.cons_append, List.nil_append]
    rw [utf8DecodeOne.eq_def]
    simp only []
    rw [if_pos r1, Char.ofNat_toNat]
  · rw [if_neg r1]
    by_cases r2 : c.toNat < 0x800
    · rw [if_pos r2]
      simp only [List.cons_append, List.nil_append]
      rw [utf8DecodeOne.eq_def]
      simp only []
      rw [if_neg (by omega : ¬ 0xC0 + c.toNat / 64 < 0x80),
        if_neg (by omega : ¬ 0xC0 + c.toNat / 64 < 0xC0),
        if_pos (by omega : 0xC0 + c.toNat / 64 < 0xE0)]
      rw [if_pos (by omega : 0x80 ≤ 0x80 + c.toNat % 64 ∧ 0x80 + c.toNat % 64 < 0xC0)]
      have hrec : (0xC0 + c.toNat / 64 - 0xC0) * 64 + (0x80 + c.toNat % 64 - 0x80) =
          c.toNat := by omega
      rw [hrec, if_pos (by omega : 0x80 ≤ c.toNat), Char.ofNat_toNat]
    · rw [if_neg r2]
      by_cases r3 : c.toNat < 0x10000
      · rw [if_pos r3]
        simp only [List.cons_append, List.nil_append]
        rw [utf8DecodeOne.eq_def]
        simp only []
        rw [if_neg (by omega : ¬ 0xE0 + c.toNat / 4096 < 0x80),
          if_neg (by omega : ¬ 0xE0 + c.toNat / 4096 < 0xC0),
          if_neg (by omega : ¬ 0xE0 + c.toNat / 4096 < 0xE0),
          if_pos (by omega : 0xE0 + c.toNat / 4096 < 0xF0)]
        rw [if_pos (by omega : (0x80 ≤ 0x80 + c.toNat / 64 % 64 ∧
          0x80 + c.toNat / 64 % 64 < 0xC0) ∧
          (0x80 ≤ 0x80 + c.toNat % 64 ∧ 0x80 + c.toNat % 64 < 0xC0))]
        have hrec : (0xE0 + c.toNat / 4096 - 0xE0) * 4096 +
            (0x80 + c.toNat / 64 % 64 - 0x80) * 64 + (0x80 + c.toNat % 64 - 0x80) =
            c.toNat := by omega
        rw [hrec, if_pos (by omega : 0x800 ≤ c.toNat ∧
          ¬ (0xD800 ≤ c.toNat ∧ c.toNat < 0xE000)), Char.ofNat_toNat]
      · rw [if_neg r3]
        simp only [List.cons_append, List.nil_append]
        rw [utf8DecodeOne.eq_def]
        simp only []
        rw [if_neg (by omega : ¬ 0xF0 + c.toNat / 262144 < 0x80),
          if_neg (by omega : ¬ 0xF0 + c.toNat / 262144 < 0xC0),
          if_neg (by omega : ¬ 0xF0 + c.toNat / 262144 < 0xE0),
          if_neg (by omega : ¬ 0xF0 + c.toNat / 262144 < 0xF0),
          if_pos (by omega : 0xF0 + c.toNat / 262144 < 0xF8)]
        rw [if_pos (by omega : (0x80 ≤ 0x80 + c.toNat / 4096 % 64 ∧
          0x80 + c.toNat / 4096 % 64 < 0xC0) ∧
          (0x80 ≤ 0x80 + c.toNat / 64 % 64 ∧ 0x80 + c.toNat / 64 % 64 < 0xC0) ∧
          (0x80 ≤ 0x80 + c.toNat % 64 ∧ 0x80 + c.toNat % 64 < 0xC0))]
        have hrec : (0xF0 + c.toNat / 262144 - 0xF0) * 262144 +
            (0x80 + c.toNat / 4096 % 64 - 0x80) * 4096 +
            (0x80 + c.toNat / 64 % 64 - 0x80) * 64 + (0x80 + c.toNat % 64 - 0x80) =
            c.toNat := by omega
        rw [hrec, if_pos (by omega : 0x10000 ≤ c.toNat ∧ c.toNat < 0x110000),
          Char.ofNat_toNat]

theorem utf8DecodeLoop_encode : ∀ (s : List Char) (fuel : Nat),
    (utf8Encode s).length + 1 ≤ fuel →
    utf8DecodeLoop fuel (utf8Encode s) = some s := by
  intro s
  induction s with
  | nil =>
    intro fuel hfuel
    match fuel, hfuel with
    | f + 1, _ => rfl
  | cons c s ih =>
    intro fuel hfuel
    rw [utf8Encode] at hfuel ⊢
    obtain ⟨b, t, heq⟩ := utf8EncodeChar_shape c
    match fuel, hfuel with
    | f + 1, hf =>
      rw [utf8DecodeLoop.eq_def]
      rw [heq]
      simp only [List.cons_append]
      rw [show (b :: (t ++ utf8Encode s)) = (b :: t) ++ utf8Encode s from rfl, ← heq]
      rw [utf8DecodeOne_encodeChar]
      simp only []
      rw [ih f ?_]
      · rfl
      · rw [heq] at hf
        simp only [List.length_append, List.length_cons] at hf ⊢
        omega

theorem utf8Decode_encode (s : List Char) : utf8Decode (utf8Encode s) = some s :=
  utf8DecodeLoop_encode s ((utf8Encode s).length + 1) le_rfl

theorem utf8Encode_lt256 : ∀ (s : List Char), ∀ b ∈ utf8Encode s, b < 256 := by
  intro s
  induction s with
  | nil => intro b hb; simp [utf8Encode] at hb
  | cons c s ih =>
    intro b hb
    rw [utf8Encode] at hb
    rcases List.mem_append.mp hb with hb | hb
    · rw [utf8EncodeChar] at hb
      have hval := char_valid_ranges c
      by_cases r1 : c.toNat < 0x80
      · rw [if_pos r1] at hb
        simp at hb
        omega
      · rw [if_neg r1] at hb
        by_cases r2 : c.toNat < 0x800
        · rw [if_pos r2] at hb
          simp at hb
          rcases hb with rfl | rfl <;> omega
        · rw [if_neg r2] at hb
          by_cases r3 : c.toNat < 0x10000
          · rw [if_pos r3] at hb
            simp at hb
            rcases hb with rfl | rfl | rfl <;> omega
          · rw [if_neg r3] at hb
            simp at hb
            rcases hb with rfl | rfl | rfl | rfl <;> omega
    · exact ih b hb

theorem gzipDecompress_compress (b : List Nat) :
    gzipDecompress (gzipCompress b) = some b := rfl

theorem b64CharVal_b64Char : ∀ n, n < 64 → b64CharVal (b64Char n) = some n := by
  decide

theorem b64Char_ne_pad : ∀ n, n < 64 → b64Char n ≠ '=' := by
  decide

theorem b64Char_url_stable : ∀ n, n < 64 →
    urlUnmapChar (urlMapChar (b64Char n)) = b64Char n ∧ urlMapChar (b64Char n) ≠ '=' := by
  decide

theorem b64decode_encode : ∀ (bytes : List Nat), (∀ x ∈ bytes, x < 256) →
    b64decodeGroups (b64encode bytes) = some bytes := by
  intro bytes
  match bytes with
  | [] => intro _; rfl
  | [a] =>
    intro h
    have ha : a < 256 := h a (by simp)
    rw [b64encode, b64decodeGroups.eq_def]
    simp only []
    rw [b64CharVal_b64Char _ (by omega), b64CharVal_b64Char _ (by omega)]
    simp only []
    rw [if_pos trivial, if_pos ⟨trivial, trivial⟩]
    simp only [Option.some.injEq, List.cons.injEq, and_true]
    omega
  | [a, b] =>
    intro h
    have ha : a < 256 := h a (by simp)
    have hb : b < 256 := h b (by simp)
    rw [b64encode, b64decodeGroups.eq_def]
    simp only []
    rw [b64CharVal_b64Char _ (by omega), b64CharVal_b64Char _ (by omega)]
    simp only []
    rw [if_neg (b64Char_ne_pad _ (by omega))]
    rw [b64CharVal_b64Char _ (by omega)]
    simp only []
    rw [if_pos trivial, if_pos trivial]
    simp only [Option.some.injEq, List.cons.injEq, and_true]
    omega
  | a :: b :: c :: rest =>
    intro h
    have ha : a < 256 := h a (by simp)
    have hb : b < 256 := h b (by simp)
    have hc : c < 256 := h c (by simp)
    rw [b64encode, b64decodeGroups.eq_def]
    simp only []
    rw [b64CharVal_b64Char _ (by omega), b64CharVal_b64Char _ (by omega)]
    simp only []
    rw [if_neg (b64Char_ne_pad _ (by omega))]
    rw [b64CharVal_b64Char _ (by omega)]
    simp only []
    rw [if_neg (b64Char_ne_pad _ (by omega))]
    rw [b64CharVal_b64Char _ (by omega)]
    simp only []
    rw [b64decode_encode rest (fun x hx => h x (by simp [hx]))]
    simp only [Option.map_some', Option.some.injEq, List.cons.injEq]
    refine ⟨by omega, by omega, by omega, trivial⟩

theorem b64encode_shape : ∀ (bytes : List Nat), (∀ x ∈ bytes, x < 256) →
    ∃ t k, b64encode bytes = t ++ List.replicate k '=' ∧ k ≤ 2 ∧
      (t.length + k) % 4 = 0 ∧ ∀ c ∈ t, ∃ n, n < 64 ∧ c = b64Char n := by
  intro bytes
  match bytes with
  | [] =>
    intro _
    exact ⟨[], 0, rfl, by omega, by simp, by simp⟩
  | [a] =>
    intro h
    have ha : a < 256 := h a (by simp)
    refine ⟨[b64Char (a / 4), b64Char (a % 4 * 16)], 2, rfl, by omega, by simp, ?_⟩
    intro c hcm
    rcases List.mem_cons.mp hcm with rfl | hcm
    · exact ⟨a / 4, by omega, rfl⟩
    · rcases List.mem_singleton.mp hcm with rfl
      exact ⟨a % 4 * 16, by omega, rfl⟩
  | [a, b] =>
    intro h
    have ha : a < 256 := h a (by simp)
    have hb : b < 256 := h b (by simp)
    refine ⟨[b64Char (a / 4), b64Char (a % 4 * 16 + b / 16), b64Char (b % 16 * 4)], 1,
      rfl, by omega, by simp, ?_⟩
    intro c hcm
    rcases List.mem_cons.mp hcm with rfl | hcm
    · exact ⟨a / 4, by omega, rfl⟩
    rcases List.mem_cons.mp hcm with rfl | hcm
    · exact ⟨a % 4 * 16 + b / 16, by omega, rfl⟩
    rcases List.mem_singleton.mp hcm with rfl
    exact ⟨b % 16 * 4, by omega, rfl⟩
  | a :: b :: c :: rest =>
    intro h
    have ha : a < 256 := h a (by simp)
    have hb : b < 256 := h b (by simp)
    have hc : c < 256 := h c (by simp)
    obtain ⟨t, k, heq, hk, hmod, hmem⟩ :=
      b64encode_shape rest (fun x hx => h x (by simp [hx]))
    refine ⟨b64Char (a / 4) :: b64Char (a % 4 * 16 + b / 16) ::
      b64Char (b % 16 * 4 + c / 64) :: b64Char (c % 64) :: t, k, ?_, hk, ?_, ?_⟩
    · rw [b64encode, heq]
      simp
    · simp only [List.length_cons]
      omega
    · intro x hx
      rcases List.mem_cons.mp hx with rfl | hx
      · exact ⟨a / 4, by omega, rfl⟩
      rcases List.mem_cons.mp hx with rfl | hx
      · exact ⟨a % 4 * 16 + b / 16, by omega, rfl⟩
      rcases List.mem_cons.mp hx with rfl | hx
      · exact ⟨b % 16 * 4 + c / 64, by omega, rfl⟩
      rcases List.mem_cons.mp hx with rfl | hx
      · exact ⟨c % 64, by omega, rfl⟩
      exact hmem x hx

theorem dropWhile_pad_replicate (k : Nat) (l : List Char) :
    List.dropWhile (fun c => decide (c = '=')) (List.replicate k '=' ++ l) =
      List.dropWhile (fun c => decide (c = '=')) l := by
  induction k with
  | zero => simp
  | succ k ih =>
    rw [List.replicate_succ, List.cons_append, List.dropWhile_cons]
    simp only [decide_eq_true_eq]
    rw [if_pos trivial]
    exact ih

theorem rstripEq_append_replicate (u : List Char) (k : Nat)
    (hu : ∀ c ∈ u, c ≠ '=') : rstripEq (u ++ List.replicate k '=') = u := by
  rw [rstripEq, List.reverse_append, List.reverse_replicate]
  rw [dropWhile_pad_replicate]
  have hdone : List.dropWhile (fun c => decide (c = '=')) u.reverse = u.reverse := by
    rcases hrev : u.reverse with _ | ⟨c0, t0⟩
    · rfl
    · rw [List.dropWhile_cons]
      have hc0 : c0 ∈ u := by
        apply List.mem_reverse.mp
        rw [hrev]
        exact List.mem_cons_self _ _
      simp only [decide_eq_true_eq]
      rw [if_neg (hu c0 hc0)]
  rw [hdone, List.reverse_reverse]

theorem padEq_eq (u : List Char) (k : Nat) (hk : k ≤ 3)
    (hmod : (u.length + k) % 4 = 0) :
    padEq u = u ++ List.replicate k '=' := by
  rw [padEq]
  congr 1
  have : (4 - u.length % 4) % 4 = k := by omega
  rw [this]

theorem b64url_roundtrip (bytes : List Nat) (h : ∀ x ∈ bytes, x < 256) :
    base64url_to_bytes (base64_to_base64url bytes) = some bytes := by
  obtain ⟨t, k, heq, hk, hmod, hmem⟩ := b64encode_shape bytes h
  rw [base64_to_base64url, heq, List.map_append, List.map_replicate]
  rw [show urlMapChar '=' = '=' from rfl]
  rw [rstripEq_append_replicate (t.map urlMapChar) k ?_]
  · rw [base64url_to_bytes, List.map_map]
    have hmapid : t.map (urlUnmapChar ∘ urlMapChar) = t := by
      rw [show t.map (urlUnmapChar ∘ urlMapChar) =
        t.map id from List.map_congr_left ?_]
      · exact List.map_id t
      · intro c hc
        obtain ⟨n, hn, rfl⟩ := hmem c hc
        exact (b64Char_url_stable n hn).1
    rw [hmapid]
    rw [padEq_eq t k (by omega) hmod]
    rw [← heq]
    exact b64decode_encode bytes h
  · intro c hc
    obtain ⟨c0, hc0, rfl⟩ := List.mem_map.mp hc
    obtain ⟨n, hn, rfl⟩ := hmem c0 hc0
    exact (b64Char_url_stable n hn).2

theorem parseVal_succ_null (f : Nat) (rest : List Char) :
    parseVal (f + 1) ('n' :: 'u' :: 'l' :: 'l' :: rest) = some (.null, rest) := rfl

theorem parseVal_succ_true (f : Nat) (rest : List Char) :
    parseVal (f + 1) ('t' :: 'r' :: 'u' :: 'e' :: rest) = some (.bool true, rest) := rfl

theorem parseVal_succ_false (f : Nat) (rest : List Char) :
    parseVal (f + 1) ('f' :: 'a' :: 'l' :: 's' :: 'e' :: rest) =
      some (.bool false, rest) := rfl

theorem parseVal_succ_minus (f : Nat) (r : List Char) :
    parseVal (f + 1) ('-' :: r) =
      match parseNumericLit r with
      | some (m, rest) => some (.int (-(m : Int)), rest)
      | none => none := rfl

theorem parseVal_succ_str (f : Nat) (r : List Char) :
    parseVal (f + 1) ('"' :: r) =
      match parseStringBody (r.length + 1) r with
      | some (str, rest) => some (.str str, rest)
      | none => none := rfl

theorem parseVal_succ_arr (f : Nat) (r : List Char) :
    parseVal (f + 1) ('[' :: r) =
      match skipWs r with
      | [] => none
      | c2 :: r2 =>
        if c2 = ']' then some (.arr [], r2)
        else
          match parseVal f (c2 :: r2) with
          | some (v, rest) => parseArrTail f [v] rest
          | none => none := rfl

theorem parseVal_succ_obj (f : Nat) (r : List Char) :
    parseVal (f + 1) ('{' :: r) =
      match skipWs r with
      | [] => none
      | c2 :: r2 =>
        if c2 = '}' then some (.obj [], r2)
        else if c2 = '"' then
          match parseStringBody (r2.length + 1) r2 with
          | none => none
          | some (k, rest) =>
            match skipWs rest with
            | ':' :: rest2 =>
              match parseVal f rest2 with
              | some (v, rest3) => parseObjTail f [(k, v)] rest3
              | none => none
            | _ => none
        else none := rfl

theorem parseArrTail_succ (f : Nat) (acc : List JsonValue) (s : List Char) :
    parseArrTail (f + 1) acc s =
      match skipWs s with
      | ']' :: rest => some (.arr acc, rest)
      | ',' :: rest =>
        match parseVal f rest with
        | some (v, rest2) => parseArrTail f (acc ++ [v]) rest2
        | none => none
      | _ => none := rfl

theorem parseObjTail_succ (f : Nat) (acc : Fields) (s : List Char) :
    parseObjTail (f + 1) acc s =
      match skipWs s with
      | '}' :: rest => some (.obj acc, rest)
      | ',' :: rest =>
        match skipWs rest with
        | '"' :: r =>
          match parseStringBody (r.length + 1) r with
          | none => none
          | some (k, rest2) =>
            match skipWs rest2 with
            | ':' :: rest3 =>
              match parseVal f rest3 with
              | some (v, rest4) => parseObjTail f (dictSet acc k v) rest4
              | none => none
            | _ => none
        | _ => none
      | _ => none := rfl

theorem parseVal_succ_other (f : Nat) (c : Char) (r : List Char)
    (hws : isJsonWs c = false) (h1 : c ≠ '{') (h2 : c ≠ '[') (h3 : c ≠ '"')
    (h4 : c ≠ 't') (h5 : c ≠ 'f') (h6 : c ≠ 'n') (h7 : c ≠ '-') :
    parseVal (f + 1) (c :: r) =
      match parseNumericLit (c :: r) with
      | some (m, rest) => some (.int (m : Int), rest)
      | none => none := by
  rw [parseVal.eq_def]
  simp only []
  rw [skipWs_cons_of_not_ws c r hws]
  simp only []
  rw [if_neg h1, if_neg h2, if_neg h3, if_neg h4, if_neg h5, if_neg h6, if_neg h7]

theorem dictSet_append_of_not_mem (fs : Fields) (k : List Char) (v : JsonValue)
    (h : k ∉ fs.map Prod.fst) : dictSet fs k v = fs ++ [(k, v)] := by
  induction fs with
  | nil => rfl
  | cons kv rest ih =>
    obtain ⟨k0, v0⟩ := kv
    simp only [List.map_cons, List.mem_cons] at h
    push_neg at h
    rw [dictSet, if_neg (Ne.symm h.1), ih h.2]
    rfl

theorem parseVal_dumps_null : RTStmt .null := by
  intro fuel rest hfuel hrest
  rw [show dumpsVal .null = ['n', 'u', 'l', 'l'] from by rw [dumpsVal]] at hfuel ⊢
  match fuel, hfuel with
  | f + 1, _ => exact parseVal_succ_null f rest

theorem parseVal_dumps_bool (b : Bool) : RTStmt (.bool b) := by
  intro fuel rest hfuel hrest
  cases b
  · rw [show dumpsVal (.bool false) = ['f', 'a', 'l', 's', 'e'] from by rw [dumpsVal]]
      at hfuel ⊢
    match fuel, hfuel with
    | f + 1, _ => exact parseVal_succ_false f rest
  · rw [show dumpsVal (.bool true) = ['t', 'r', 'u', 'e'] from by rw [dumpsVal]]
      at hfuel ⊢
    match fuel, hfuel with
    | f + 1, _ => exact parseVal_succ_true f rest

theorem parseVal_dumps_int (n : Int) : RTStmt (.int n) := by
  intro fuel rest hfuel hrest
  rw [show dumpsVal (.int n) = dumpInt n from by rw [dumpsVal]] at hfuel ⊢
  rw [dumpInt] at hfuel ⊢
  by_cases hneg : n < 0
  · rw [if_pos hneg] at hfuel ⊢
    match fuel, hfuel with
    | f + 1, _ =>
      simp only [List.cons_append]
      rw [parseVal_succ_minus f (dumpNat n.natAbs ++ rest)]
      rw [dumpNat_parse n.natAbs rest hrest]
      simp only []
      have hval : -((n.natAbs : Nat) : Int) = n := by omega
      rw [hval]
  · rw [if_neg hneg] at hfuel ⊢
    obtain ⟨d, t, hd, hshape⟩ := dumpNat_shape n.toNat
    obtain ⟨hws, h1, h2, h3, h4, h5, h6, h7, _⟩ := digitChar_not_special d hd
    match fuel, hfuel with
    | f + 1, _ =>
      rw [hshape]
      simp only [List.cons_append]
      rw [parseVal_succ_other f (digitChar d) (t ++ rest) hws h1 h2 h3 h4 h5 h6 h7]
      rw [show digitChar d :: (t ++ rest) = dumpNat n.toNat ++ rest from by
        rw [hshape]; rfl]
      rw [dumpNat_parse n.toNat rest hrest]
      simp only []
      have hval : ((n.toNat : Nat) : Int) = n := by omega
      rw [hval]

theorem parseVal_dumps_str (s : List Char) : RTStmt (.str s) := by
  intro fuel rest hfuel hrest
  rw [show dumpsVal (.str s) = '"' :: escString s ++ ['"'] from by rw [dumpsVal]]
    at hfuel ⊢
  match fuel, hfuel with
  | f + 1, _ =>
    simp only [List.cons_append, List.append_assoc, List.singleton_append,
      List.nil_append]
    rw [parseVal_succ_str f (escString s ++ '"' :: rest)]
    rw [parseStringBody_escString s _ rest le_rfl]

mutual

theorem parseVal_dumps (x : JsonValue) (hwf : wfV x = true) : RTStmt x := by
  match x, hwf with
  | .null, _ => exact parseVal_dumps_null
  | .bool b, _ => exact parseVal_dumps_bool b
  | .int n, _ => exact parseVal_dumps_int n
  | .str s, _ => exact parseVal_dumps_str s
  | .arr [], _ =>
    intro fuel rest hfuel hrest
    rw [show dumpsVal (.arr []) = ['[', ']'] from by rw [dumpsVal, dumpsArr]]
      at hfuel ⊢
    match fuel, hfuel with
    | f + 1, _ =>
      simp only [List.cons_append, List.nil_append]
      rw [parseVal_succ_arr f (']' :: rest)]
      rw [skipWs_cons_of_not_ws ']' rest (by decide)]
      simp only []
      rw [if_pos trivial]
  | .arr (v :: vs), hwf =>
    have hsplit : wfV v = true ∧ wfArr vs = true := by
      simpa [wfV, wfArr, Bool.and_eq_true] using hwf
    intro fuel rest hfuel hrest
    rw [show dumpsVal (.arr (v :: vs)) = '[' :: (dumpsVal v ++ dumpsArrTail vs)
      from by rw [dumpsVal, dumpsArr]] at hfuel ⊢
    match fuel, hfuel with
    | f + 1, hf =>
      simp only [List.cons_append, List.append_assoc] at hf ⊢
      rw [parseVal_succ_arr f (dumpsVal v ++ (dumpsArrTail vs ++ rest))]
      rw [skipWs_dumps v (dumpsArrTail vs ++ rest)]
      obtain ⟨c, t, heq, hcws, hcrb⟩ := dumps_head_spec v
      rw [heq]
      simp only [List.cons_append]
      rw [if_neg hcrb]
      rw [show c :: (t ++ (dumpsArrTail vs ++ rest)) =
        dumpsVal v ++ (dumpsArrTail vs ++ rest) from by rw [heq]; rfl]
      have hlen1 : (dumpsVal v ++ (dumpsArrTail vs ++ rest)).length + 1 ≤ f := by
        simp only [List.length_cons, List.length_append] at hf ⊢
        omega
      rw [parseVal_dumps v hsplit.1 f (dumpsArrTail vs ++ rest) hlen1
        (headIsDigit_dumpsArrTail vs rest)]
      simp only []
      have hlen2 : (dumpsArrTail vs ++ rest).length + 1 ≤ f := by
        have hvp := dumpsVal_length_pos v
        simp only [List.length_append] at hlen1 ⊢
        omega
      rw [parseArrTail_rt vs hsplit.2 f [v] rest hlen2 hrest]
      simp
  | .obj [], _ =>
    intro fuel rest hfuel hrest
    rw [show dumpsVal (.obj []) = ['{', '}'] from by rw [dumpsVal, dumpsObj]]
      at hfuel ⊢
    match fuel, hfuel with
    | f + 1, _ =>
      simp only [List.cons_append, List.nil_append]
      rw [parseVal_succ_obj f ('}' :: rest)]
      rw [skipWs_cons_of_not_ws '}' rest (by decide)]
      simp only []
      rw [if_pos trivial]
  | .obj ((k, v) :: fs2), hwf =>
    rw [wfV, Bool.and_eq_true, decide_eq_true_eq, List.map_cons, List.nodup_cons,
      wfFields, Bool.and_eq_true] at hwf
    intro fuel rest hfuel hrest
    rw [show dumpsVal (.obj ((k, v) :: fs2)) =
      '{' :: ('"' :: escString k ++ '"' :: ':' :: dumpsVal v ++ dumpsObjTail fs2)
      from by rw [dumpsVal, dumpsObj]] at hfuel ⊢
    match fuel, hfuel with
    | f + 1, hf =>
      simp only [List.cons_append, List.append_assoc] at hf ⊢
      rw [parseVal_succ_obj f
        ('"' :: (escString k ++ '"' :: ':' :: (dumpsVal v ++ (dumpsObjTail fs2 ++ rest))))]
      rw [skipWs_cons_of_not_ws '"' _ (by decide)]
      simp only []
      rw [if_pos trivial]
      rw [parseStringBody_escString k _
        (':' :: (dumpsVal v ++ (dumpsObjTail fs2 ++ rest))) le_rfl]
      simp only []
      rw [skipWs_cons_of_not_ws ':' _ (by decide)]
      simp only []
      have hlen1 : (dumpsVal v ++ (dumpsObjTail fs2 ++ rest)).length + 1 ≤ f := by
        simp only [List.length_cons, List.length_append] at hf ⊢
        omega
      rw [parseVal_dumps v hwf.2.1 f (dumpsObjTail fs2 ++ rest) hlen1
        (headIsDigit_dumpsObjTail fs2 rest)]
      simp only []
      have hdisj : ∀ k2 ∈ fs2.map Prod.fst,
          k2 ∉ ([(k, v)] : Fields).map Prod.fst := by
        intro k2 hk2
        simp only [List.map_cons, List.map_nil, List.mem_singleton]
        intro he
        exact hwf.1.1 (he ▸ hk2)
      have hlen2 : (dumpsObjTail fs2 ++ rest).length + 1 ≤ f := by
        have hvp := dumpsVal_length_pos v
        simp only [List.length_append] at hlen1 ⊢
        omega
      rw [parseObjTail_rt fs2 hwf.2.2 hwf.1.2 f [(k, v)] rest hdisj hlen2 hrest]
      simp
termination_by sizeOf x
decreasing_by
  all_goals simp_wf
  all_goals omega

theorem parseArrTail_rt (vs : List JsonValue) (hwf : wfArr vs = true) :
    ∀ (fuel : Nat) (acc : List JsonValue) (rest : List Char),
      (dumpsArrTail vs ++ rest).length + 1 ≤ fuel → headIsDigit rest = false →
      parseArrTail fuel acc (dumpsArrTail vs ++ rest) =
        some (.arr (acc ++ vs), rest) := by
  match vs, hwf with
  | [], _ =>
    intro fuel acc rest hfuel hrest
    rw [show dumpsArrTail ([] : List JsonValue) = [']'] from by rw [dumpsArrTail]]
      at hfuel ⊢
    match fuel, hfuel with
    | f + 1, _ =>
      rw [List.singleton_append] at hfuel ⊢
      rw [parseArrTail_succ f acc (']' :: rest)]
      rw [skipWs_cons_of_not_ws ']' rest (by decide)]
      simp
  | v :: vs2, hwf =>
    have hsplit : wfV v = true ∧ wfArr vs2 = true := by
      simpa [wfArr, Bool.and_eq_true] using hwf
    intro fuel acc rest hfuel hrest
    rw [show dumpsArrTail (v :: vs2) = ',' :: dumpsVal v ++ dumpsArrTail vs2
      from by rw [dumpsArrTail]] at hfuel ⊢
    simp only [List.cons_append, List.append_assoc] at hfuel ⊢
    match fuel, hfuel with
    | f + 1, hf =>
      rw [parseArrTail_succ f acc (',' :: (dumpsVal v ++ (dumpsArrTail vs2 ++ rest)))]
      rw [skipWs_cons_of_not_ws ',' _ (by decide)]
      simp only []
      have hlen1 : (dumpsVal v ++ (dumpsArrTail vs2 ++ rest)).length + 1 ≤ f := by
        simp only [List.length_cons, List.length_append] at hf ⊢
        omega
      rw [parseVal_dumps v hsplit.1 f (dumpsArrTail vs2 ++ rest) hlen1
        (headIsDigit_dumpsArrTail vs2 rest)]
      simp only []
      have hlen2 : (dumpsArrTail vs2 ++ rest).length + 1 ≤ f := by
        have hvp := dumpsVal_length_pos v
        simp only [List.length_append] at hlen1 ⊢
        omega
      rw [parseArrTail_rt vs2 hsplit.2 f (acc ++ [v]) rest hlen2 hrest]
      simp
termination_by sizeOf vs
decreasing_by
  all_goals simp_wf
  all_goals omega

theorem parseObjTail_rt (fs : Fields) (hwf : wfFields fs = true)
    (hnd : (fs.map Prod.fst).Nodup) :
    ∀ (fuel : Nat) (acc : Fields) (rest : List Char),
      (∀ k2 ∈ fs.map Prod.fst, k2 ∉ acc.map Prod.fst) →
      (dumpsObjTail fs ++ rest).length + 1 ≤ fuel → headIsDigit rest = false →
      parseObjTail fuel acc (dumpsObjTail fs ++ rest) =
        some (.obj (acc ++ fs), rest) := by
  match fs, hwf, hnd with
  | [], _, _ =>
    intro fuel acc rest hdisj hfuel hrest
    rw [show dumpsObjTail ([] : Fields) = ['}'] from by rw [dumpsObjTail]]
      at hfuel ⊢
    match fuel, hfuel with
    | f + 1, _ =>
      rw [List.singleton_append] at hfuel ⊢
      rw [parseObjTail_succ f acc ('}' :: rest)]
      rw [skipWs_cons_of_not_ws '}' rest (by decide)]
      simp
  | (k, v) :: fs2, hwf, hnd =>
    have hwf2 : wfV v = true ∧ wfFields fs2 = true := by
      simpa [wfFields, Bool.and_eq_true] using hwf
    have hndk : k ∉ fs2.map Prod.fst ∧ (fs2.map Prod.fst).Nodup := by
      simp only [List.map_cons, List.nodup_cons] at hnd
      exact hnd
    intro fuel acc rest hdisj hfuel hrest
    rw [show dumpsObjTail ((k, v) :: fs2) =
      ',' :: '"' :: escString k ++ '"' :: ':' :: dumpsVal v ++ dumpsObjTail fs2
      from by rw [dumpsObjTail]] at hfuel ⊢
    simp only [List.cons_append, List.append_assoc] at hfuel ⊢
    match fuel, hfuel with
    | f + 1, hf =>
      rw [parseObjTail_succ f acc
        (',' :: '"' :: (escString k ++ '"' :: ':' :: (dumpsVal v ++ (dumpsObjTail fs2 ++ rest))))]
      rw [skipWs_cons_of_not_ws ',' _ (by decide)]
      simp only []
      rw [skipWs_cons_of_not_ws '"' _ (by decide)]
      simp only []
      rw [parseStringBody_escString k _
        (':' :: (dumpsVal v ++ (dumpsObjTail fs2 ++ rest))) le_rfl]
      simp only []
      rw [skipWs_cons_of_not_ws ':' _ (by decide)]
      simp only []
      have hlen1 : (dumpsVal v ++ (dumpsObjTail fs2 ++ rest)).length + 1 ≤ f := by
        simp only [List.length_cons, List.length_append] at hf ⊢
        omega
      rw [parseVal_dumps v hwf2.1 f (dumpsObjTail fs2 ++ rest) hlen1
        (headIsDigit_dumpsObjTail fs2 rest)]
      simp only []
      have hknotacc : k ∉ acc.map Prod.fst :=
        hdisj k (by rw [List.map_cons]; exact List.mem_cons_self _ _)
      rw [dictSet_append_of_not_mem acc k v hknotacc]
      have hdisj2 : ∀ k2 ∈ fs2.map Prod.fst,
          k2 ∉ (acc ++ [(k, v)]).map Prod.fst := by
        intro k2 hk2
        simp only [List.map_append, List.map_cons, List.map_nil,
          List.mem_append, List.mem_singleton]
        push_neg
        refine ⟨hdisj k2 (by rw [List.map_cons]; exact List.mem_cons_of_mem _ hk2), ?_⟩
        intro he
        exact hndk.1 (he ▸ hk2)
      have hlen2 : (dumpsObjTail fs2 ++ rest).length + 1 ≤ f := by
        have hvp := dumpsVal_length_pos v
        simp only [List.length_append] at hlen1 ⊢
        omega
      rw [parseObjTail_rt fs2 hwf2.2 hndk.2 f (acc ++ [(k, v)]) rest hdisj2
        hlen2 hrest]
      simp
termination_by sizeOf fs
decreasing_by
  all_goals simp_wf
  all_goals omega

end

theorem loads_dumps (x : JsonValue) (hwf : wfV x = true) :
    loads (dumpsVal x) = some x := by
  rw [loads]
  have h := parseVal_dumps x hwf ((dumpsVal x).length + 1) [] (by simp) rfl
  rw [List.append_nil] at h
  rw [h]
  rfl

theorem gzipCompress_lt256 (s : List Char) :
    ∀ b ∈ gzipCompress (utf8Encode s), b < 256 := by
  intro b hb
  rw [gzipCompress] at hb
  rcases List.mem_cons.mp hb with rfl | hb
  · omega
  rcases List.mem_cons.mp hb with rfl | hb
  · omega
  exact utf8Encode_lt256 s b hb

theorem decode_of_encoded_text (s : List Char) :
    decode_url_fragment_to_json
      (base64_to_base64url (gzipCompress (utf8Encode s))) = loads s := by
  rw [decode_url_fragment_to_json, b64url_roundtrip _ (gzipCompress_lt256 s)]
  rw [Option.some_bind, decompressText, gzipDecompress_compress, Option.some_bind,
    utf8Decode_encode, Option.some_bind]

theorem encode_eq_dumps_of_not_str (x : JsonValue) (hns : ∀ s, x ≠ .str s) :
    encode_json_to_url_fragment x =
      base64_to_base64url (gzipCompress (utf8Encode (dumpsVal x))) := by
  cases x with
  | str s => exact absurd rfl (hns s)
  | null => rfl
  | bool b => rfl
  | int n => rfl
  | arr xs => rfl
  | obj fs => rfl

theorem decode_encode_of_wf (x : JsonValue) (hwf : wfV x = true)
    (hns : ∀ s, x ≠ .str s) :
    decode_url_fragment_to_json (encode_json_to_url_fragment x) = some x := by
  rw [encode_eq_dumps_of_not_str x hns, decode_of_encoded_text, loads_dumps x hwf]

theorem decode_encode_str (s : List Char) :
    decode_url_fragment_to_json (encode_json_to_url_fragment (.str s)) =
      loads s := by
  rw [show encode_json_to_url_fragment (.str s) =
    base64_to_base64url (gzipCompress (utf8Encode s)) from rfl]
  exact decode_of_encoded_text s

/-- C1 (amended): the codec round trip `decode(encode(x)) = x` holds for
every well-formed JSON value except strings: the `isinstance(obj, str)`
passthrough branch of `encode_json_to_url_fragment` compresses a string
input verbatim instead of serializing it, so only non-string values are
guaranteed to round-trip. -/
theorem claim_C1 (x : JsonValue) (hwf : wfV x = true) (hns : ∀ s, x ≠ .str s) :
    decode_url_fragment_to_json (encode_json_to_url_fragment x) = some x :=
  decode_encode_of_wf x hwf hns

/-- Witness: the round trip evaluated on the concrete object `{"a": 1}`. -/
theorem claim_C1_witness :
    wfV (.obj [("a".data, .int 1)]) = true ∧
    decode_url_fragment_to_json (encode_json_to_url_fragment
      (.obj [("a".data, .int 1)])) = some (.obj [("a".data, .int 1)]) := by
  have hwf : wfV (.obj [("a".data, .int 1)]) = true := by
    simp [wfV, wfFields]
  exact ⟨hwf, claim_C1 _ hwf (fun s h => JsonValue.noConfusion h)⟩

/-- Counterexample to the claim as stated: for the JSON string `"hi"`,
`encode` compresses the two characters `hi` verbatim, and decoding fails
(`json.loads("hi")` raises), so `decode(encode("hi"))` is not `"hi"`. -/
theorem claim_C1_cex :
    decode_url_fragment_to_json (encode_json_to_url_fragment
      (.str ['h', 'i'])) = none := rfl

/-- C10: on a string input the encoder takes the `isinstance(obj, str)`
branch and compresses the string verbatim, so decoding returns exactly
`json.loads` of that string: a JSON parse when the string is valid JSON
text (e.g. `"[1,2]"`), a failure when it is not (e.g. `"hi"`). -/
theorem claim_C10 :
    (∀ s : List Char, encode_json_to_url_fragment (.str s) =
      base64_to_base64url (gzipCompress (utf8Encode s))) ∧
    (∀ s : List Char,
      decode_url_fragment_to_json (encode_json_to_url_fragment (.str s)) =
        loads s) ∧
    decode_url_fragment_to_json (encode_json_to_url_fragment
      (.str "[1,2]".data)) = some (.arr [.int 1, .int 2]) ∧
    decode_url_fragment_to_json (encode_json_to_url_fragment
      (.str "hi".data)) = none :=
  ⟨fun _ => rfl, decode_encode_str, rfl, rfl⟩

/-- C7: `decode_url_fragment_to_json` maps `-`/`_` back to `+`/`/`,
restores `=` padding up to a multiple of four, standard-base64-decodes,
decompresses and UTF-8-decodes, then parses with `json.loads`; the whole
decode fails exactly when one of the three stages (base64, decompression,
JSON parse) fails, and it succeeds on every fragment produced by encoding
a well-formed non-string value. -/
theorem claim_C7 :
    (∀ s : List Char, (padEq s).length % 4 = 0 ∧
      padEq s = s ++ List.replicate ((4 - s.length % 4) % 4) '=') ∧
    (∀ s : List Char, base64url_to_bytes s =
      b64decodeGroups (padEq (s.map urlUnmapChar))) ∧
    (∀ fragment : List Char, decode_url_fragment_to_json fragment = none ↔
      base64url_to_bytes fragment = none ∨
      (∃ raw, base64url_to_bytes fragment = some raw ∧
        decompressText raw = none) ∨
      (∃ raw text, base64url_to_bytes fragment = some raw ∧
        decompressText raw = some text ∧ loads text = none)) ∧
    (∀ x : JsonValue, wfV x = true → (∀ s, x ≠ .str s) →
      decode_url_fragment_to_json (encode_json_to_url_fragment x) = some x) := by
  refine ⟨?_, fun _ => rfl, ?_, decode_encode_of_wf⟩
  · intro s
    constructor
    · rw [padEq]
      simp only [List.length_append, List.length_replicate]
      omega
    · rfl
  · intro fragment
    rw [decode_url_fragment_to_json]
    rcases hb : base64url_to_bytes fragment with _ | raw
    · simp [hb]
    · rcases hd : decompressText raw with _ | text
      · simp [hb, hd]
      · rcases hl : loads text with _ | v
        · simp [hb, hd, hl]
        · simp [hb, hd, hl]

/-- Witness: decoding the encoding of the concrete array `[3]` succeeds,
and the padding property evaluated at a length-one fragment. -/
theorem claim_C7_witness :
    (padEq ['A']).length % 4 = 0 ∧
    wfV (.arr [.int 3]) = true ∧
    decode_url_fragment_to_json (encode_json_to_url_fragment
      (.arr [.int 3])) = some (.arr [.int 3]) := by
  have hwf : wfV (.arr [.int 3]) = true := by simp [wfV, wfArr]
  exact ⟨(claim_C7.1 ['A']).1, hwf,
    claim_C7.2.2.2 _ hwf (fun s h => JsonValue.noConfusion h)⟩

theorem takeWhile_all (p : Char → Bool) :
    ∀ (s : List Char), (∀ x ∈ s, p x = true) → List.takeWhile p s = s := by
  intro s
  induction s with
  | nil => intro _; rfl
  | cons c s ih =>
    intro h
    rw [List.takeWhile_cons, h c (List.mem_cons_self _ _), if_pos rfl,
      ih (fun x hx => h x (List.mem_cons_of_mem _ hx))]

theorem takeWhile_append_all (p : Char → Bool) :
    ∀ (a l : List Char), (∀ x ∈ a, p x = true) →
      List.takeWhile p (a ++ l) = a ++ List.takeWhile p l := by
  intro a
  induction a with
  | nil => intro l _; rfl
  | cons c a ih =>
    intro l h
    simp only [List.cons_append]
    rw [List.takeWhile_cons, h c (List.mem_cons_self _ _), if_pos rfl,
      ih l (fun x hx => h x (List.mem_cons_of_mem _ hx))]

theorem takeWhile_middle (p : Char → Bool) (a b : List Char) (c : Char)
    (ha : ∀ x ∈ a, p x = true) (hc : p c = false) :
    List.takeWhile p (a ++ c :: b) = a := by
  rw [takeWhile_append_all p a (c :: b) ha, List.takeWhile_cons, hc]
  simp

theorem not_bne_of_not_mem (m : Char) (s : List Char) (h : m ∉ s) :
    ∀ x ∈ s, (x != m) = true := by
  intro x hx
  simp only [bne_iff_ne, ne_eq]
  intro he
  exact h (he ▸ hx)

theorem stop_no_marks (s : List Char) (h7 : '?' ∉ s) (h3 : '#' ∉ s) :
    stopAtQueryOrHash s = s := by
  rw [stopAtQueryOrHash, takeWhile_all _ s (not_bne_of_not_mem _ s h7),
    takeWhile_all _ s (not_bne_of_not_mem _ s h3)]

theorem stop_at_query (a b : List Char) (h7 : '?' ∉ a) (h3 : '#' ∉ a) :
    stopAtQueryOrHash (a ++ '?' :: b) = a := by
  rw [stopAtQueryOrHash,
    takeWhile_middle _ a b '?' (not_bne_of_not_mem _ a h7) rfl,
    takeWhile_all _ a (not_bne_of_not_mem _ a h3)]

theorem stop_at_hash (a b : List Char) (h7 : '?' ∉ a) (h3 : '#' ∉ a) :
    stopAtQueryOrHash (a ++ '#' :: b) = a := by
  rw [stopAtQueryOrHash,
    takeWhile_append_all _ a ('#' :: b) (not_bne_of_not_mem _ a h7),
    List.takeWhile_cons]
  rw [if_pos (show (('#' : Char) != '?') = true from rfl)]
  exact takeWhile_middle _ a _ '#' (not_bne_of_not_mem _ a h3) rfl

theorem afterFirstI_none_iff : ∀ (url : List Char),
    afterFirstI url = none ↔ ¬ (['/', 'i', '/'] <:+: url) := by
  intro url
  induction url with
  | nil =>
    constructor
    · intro _ hinf
      obtain ⟨s, t, hst⟩ := hinf
      simp at hst
    · intro _; rfl
  | cons c rest ih =>
    rw [afterFirstI]
    by_cases hcond : (c :: rest).take 3 = ['/', 'i', '/']
    · rw [if_pos hcond]
      have hpre : ['/', 'i', '/'] <+: c :: rest :=
        List.prefix_iff_eq_take.mpr hcond.symm
      exact iff_of_false (by simp) (fun hni => hni hpre.isInfix)
    · rw [if_neg hcond]
      rw [ih]
      constructor
      · intro hni hinf
        rcases List.infix_cons_iff.mp hinf with hp | hi
        · exact hcond (List.prefix_iff_eq_take.mp hp).symm
        · exact hni hi
      · intro hni hinf
        exact hni (List.infix_cons hinf)

theorem afterFirstI_first : ∀ (pre post : List Char),
    ¬ (['/', 'i', '/'] <:+: (pre ++ ['/', 'i'])) →
    afterFirstI (pre ++ '/' :: 'i' :: '/' :: post) = some post := by
  intro pre
  induction pre with
  | nil => intro post _; rfl
  | cons c pre ih =>
    intro post hni
    rw [List.cons_append, afterFirstI]
    have hcond : ¬ ((c :: (pre ++ '/' :: 'i' :: '/' :: post)).take 3 =
        ['/', 'i', '/']) := by
      intro heq
      apply hni
      rw [List.take_succ_cons] at heq
      injection heq with hc heq2
      subst hc
      cases pre with
      | nil =>
        simp at heq2
      | cons b pre2 =>
        rw [List.cons_append, List.take_succ_cons] at heq2
        injection heq2 with hb heq3
        subst hb
        cases pre2 with
        | nil => exact ⟨[], ['i'], rfl⟩
        | cons b2 pre3 =>
          rw [List.cons_append, List.take_succ_cons] at heq3
          injection heq3 with hb2 _
          subst hb2
          exact ⟨[], pre3 ++ ['/', 'i'], rfl⟩
    rw [if_neg hcond]
    apply ih post
    intro hinf
    exact hni (List.infix_cons hinf)

/-- C8: the full URL is the prefix `https://icon.kitchen/i/` followed by
the fragment; extraction from a URL finds the first `/i/`, takes what
follows it and trims at the first `?` and `#` (so the example URL yields
`Zm9v`), and a URL with no `/i/` substring is rejected (`none`, the
`SystemExit` branch). -/
theorem claim_C8 :
    build_icon_kitchen_url "Zm9v".data = "https://icon.kitchen/i/Zm9v".data ∧
    extract_fragment_from_url "https://icon.kitchen/i/Zm9v?x=1#y".data =
      some "Zm9v".data ∧
    (∀ url : List Char,
      extract_fragment_from_url url = none ↔ ¬ ("/i/".data <:+: url)) ∧
    (∀ pre post : List Char, ¬ ("/i/".data <:+: (pre ++ ['/', 'i'])) →
      extract_fragment_from_url (pre ++ '/' :: 'i' :: '/' :: post) =
        some (stopAtQueryOrHash post)) ∧
    (∀ a b : List Char, '?' ∉ a → '#' ∉ a →
      stopAtQueryOrHash (a ++ '?' :: b) = a ∧
      stopAtQueryOrHash (a ++ '#' :: b) = a) ∧
    (∀ s : List Char, '?' ∉ s → '#' ∉ s → stopAtQueryOrHash s = s) := by
  refine ⟨rfl, rfl, ?_, ?_, ?_, stop_no_marks⟩
  · intro url
    rw [show ("/i/".data : List Char) = ['/', 'i', '/'] from rfl,
      ← afterFirstI_none_iff url, extract_fragment_from_url]
    cases afterFirstI url <;> simp
  · intro pre post h
    rw [show ("/i/".data : List Char) = ['/', 'i', '/'] from rfl] at h
    rw [extract_fragment_from_url, afterFirstI_first pre post h]
    rfl
  · intro a b h7 h3
    exact ⟨stop_at_query a b h7 h3, stop_at_hash a b h7 h3⟩

/-- Witness: extraction after a first `/i/`, query/hash trimming and the
no-marker case, each at concrete inputs. -/
theorem claim_C8_witness :
    extract_fragment_from_url (['h'] ++ '/' :: 'i' :: '/' :: "ab?c#d".data) =
      some "ab".data ∧
    stopAtQueryOrHash ("xy".data ++ '#' :: "q?".data) = "xy".data ∧
    stopAtQueryOrHash "Zm9v".data = "Zm9v".data := by
  refine ⟨?_, ?_, ?_⟩
  · have hni : ¬ ("/i/".data <:+: (['h'] ++ ['/', 'i'])) :=
      (claim_C8.2.2.1 (['h'] ++ ['/', 'i'])).mp rfl
    rw [claim_C8.2.2.2.1 ['h'] "ab?c#d".data hni]
    rfl
  · exact (claim_C8.2.2.2.2.1 "xy".data "q?".data (by decide) (by decide)).2
  · exact claim_C8.2.2.2.2.2 "Zm9v".data (by decide) (by decide)

theorem itemOk_true_of_ok (it : JsonValue) (p : List Char × Fields)
    (h : checkItem it = .ok p) : itemOk it = true := by
  rw [itemOk, h]

theorem itemOk_false_of_error (it : JsonValue) (e : ItemErr)
    (h : checkItem it = .error e) : itemOk it = false := by
  rw [itemOk, h]

theorem validateItems_error_iff : ∀ (items : List JsonValue) (i : Nat) (e : ItemErr),
    validateItems items = .error (i, e) ↔
      ∃ it, items[i]? = some it ∧ checkItem it = .error e ∧
        ∀ j, j < i → ∀ it2, items[j]? = some it2 → itemOk it2 = true := by
  intro items
  induction items with
  | nil =>
    intro i e
    constructor
    · intro h
      rw [validateItems] at h
      exact absurd h (by simp)
    · rintro ⟨it, hit, _, _⟩
      simp at hit
  | cons it0 rest ih =>
    intro i e
    rw [validateItems]
    cases hch : checkItem it0 with
    | error e0 =>
      constructor
      · intro h
        simp only [Except.error.injEq, Prod.mk.injEq] at h
        obtain ⟨hi, he⟩ := h
        subst hi
        subst he
        exact ⟨it0, by simp, hch, fun j hj => absurd hj (by omega)⟩
      · rintro ⟨it, hit, hchk, hprev⟩
        cases i with
        | zero =>
          rw [List.getElem?_cons_zero] at hit
          injection hit with hit
          subst hit
          rw [hch] at hchk
          injection hchk with hchk
          rw [hchk]
        | succ i2 =>
          exfalso
          have h0 := hprev 0 (by omega) it0 (by simp)
          rw [itemOk_false_of_error it0 e0 hch] at h0
          exact Bool.noConfusion h0
    | ok p0 =>
      cases hv : validateItems rest with
      | error pr =>
        obtain ⟨i0, e0⟩ := pr
        constructor
        · intro h
          simp only [Except.error.injEq, Prod.mk.injEq] at h
          obtain ⟨hi, he⟩ := h
          subst hi
          subst he
          obtain ⟨it, hit, hchk, hprev⟩ := (ih i0 e0).mp hv
          refine ⟨it, by simpa using hit, hchk, ?_⟩
          intro j hj it2 hit2
          cases j with
          | zero =>
            rw [List.getElem?_cons_zero] at hit2
            injection hit2 with hit2
            subst hit2
            exact itemOk_true_of_ok it0 p0 hch
          | succ j2 =>
            exact hprev j2 (by omega) it2 (by simpa using hit2)
        · rintro ⟨it, hit, hchk, hprev⟩
          cases i with
          | zero =>
            rw [List.getElem?_cons_zero] at hit
            injection hit with hit
            subst hit
            rw [hch] at hchk
            exact Except.noConfusion hchk
          | succ i2 =>
            have h2 := (ih i2 e).mpr ⟨it, by simpa using hit, hchk,
              fun j hj it2 hit2 => hprev (j + 1) (by omega) it2 (by simpa using hit2)⟩
            rw [hv] at h2
            simp only [Except.error.injEq, Prod.mk.injEq] at h2
            obtain ⟨h3, h4⟩ := h2
            rw [h3, h4]
      | ok ps =>
        apply iff_of_false (by simp)
        rintro ⟨it, hit, hchk, hprev⟩
        cases i with
        | zero =>
          rw [List.getElem?_cons_zero] at hit
          injection hit with hit
          subst hit
          rw [hch] at hchk
          exact Except.noConfusion hchk
        | succ i2 =>
          have h2 := (ih i2 e).mpr ⟨it, by simpa using hit, hchk,
            fun j hj it2 hit2 => hprev (j + 1) (by omega) it2 (by simpa using hit2)⟩
          rw [hv] at h2
          exact Except.noConfusion h2

theorem validateItems_ok_length : ∀ (items : List JsonValue)
    (pairs : List (List Char × Fields)),
    validateItems items = .ok pairs → pairs.length = items.length := by
  intro items
  induction items with
  | nil =>
    intro pairs h
    rw [validateItems] at h
    injection h with h
    rw [← h]
    rfl
  | cons it0 rest ih =>
    intro pairs h
    rw [validateItems] at h
    cases hch : checkItem it0 with
    | error e0 =>
      rw [hch] at h
      exact absurd h (by simp)
    | ok p0 =>
      rw [hch] at h
      cases hv : validateItems rest with
      | error pr =>
        rw [hv] at h
        obtain ⟨i0, e0⟩ := pr
        exact absurd h (by simp)
      | ok ps =>
        rw [hv] at h
        injection h with h
        rw [← h]
        simp [ih ps hv]

theorem processDocument_unfold (doc : Fields) (tmpl : Fields)
    (items : List JsonValue)
    (ht : dictGet doc "template".data = some (.obj tmpl))
    (hi : dictGet doc "items".data = some (.arr items)) :
    processDocument doc =
      if items.isEmpty then .error .noItems
      else
        match validateItems items with
        | .error (i, e) => .error (.item i e)
        | .ok pairs =>
          .ok (pairs.map fun p =>
            build_icon_kitchen_url (encode_json_to_url_fragment
              (.obj (deep_merge tmpl p.2)))) := by
  rw [processDocument.eq_def, ht]
  simp only []
  rw [hi]

/-- C9: the document-processing slice of `main` fails fast: with a valid
`template` object and an `items` array, validation errors surface as
`item i e` where `i` is the first offending index (every earlier item
passes, the item at `i` fails with exactly that error), the result is an
error and no URL list is produced; when validation succeeds the result is
one URL per item, each built only from its validated override set merged
over the template. -/
theorem claim_C9 :
    (∀ (items : List JsonValue) (i : Nat) (e : ItemErr),
      validateItems items = .error (i, e) ↔
        ∃ it, items[i]? = some it ∧ checkItem it = .error e ∧
          ∀ j, j < i → ∀ it2, items[j]? = some it2 → itemOk it2 = true) ∧
    (∀ (doc : Fields) (tmpl : Fields) (items : List JsonValue) (i : Nat)
      (e : ItemErr),
      dictGet doc "template".data = some (.obj tmpl) →
      dictGet doc "items".data = some (.arr items) →
      (processDocument doc = .error (.item i e) ↔
        validateItems items = .error (i, e))) ∧
    (∀ (doc : Fields) (tmpl : Fields) (items : List JsonValue)
      (pairs : List (List Char × Fields)),
      dictGet doc "template".data = some (.obj tmpl) →
      dictGet doc "items".data = some (.arr items) →
      items.isEmpty = false →
      validateItems items = .ok pairs →
      processDocument doc = .ok (pairs.map fun p =>
        build_icon_kitchen_url (encode_json_to_url_fragment
          (.obj (deep_merge tmpl p.2)))) ∧
      pairs.length = items.length) := by
  refine ⟨validateItems_error_iff, ?_, ?_⟩
  · intro doc tmpl items i e ht hi
    rw [processDocument_unfold doc tmpl items ht hi]
    by_cases hemp : items.isEmpty
    · rw [if_pos hemp]
      have hnil : items = [] := by
        cases items with
        | nil => rfl
        | cons a l => exact absurd hemp (by simp)
      subst hnil
      constructor
      · intro h
        exact absurd h (by simp)
      · intro h
        rw [validateItems] at h
        exact absurd h (by simp)
    · rw [if_neg hemp]
      cases hv : validateItems items with
      | error pr =>
        obtain ⟨i0, e0⟩ := pr
        simp only [Except.error.injEq, CliErr.item.injEq, Prod.mk.injEq]
      | ok ps =>
        apply iff_of_false (by simp) (by simp)
  · intro doc tmpl items pairs ht hi hemp hpairs
    refine ⟨?_, validateItems_ok_length items pairs hpairs⟩
    rw [processDocument_unfold doc tmpl items ht hi,
      if_neg (by rw [hemp]; exact Bool.false_ne_true), hpairs]

/-- Witness: the document `{"template": {}, "items": [{}]}` is rejected
with the offending index 0 (its single item lacks a `name`). -/
theorem claim_C9_witness :
    processDocument [("template".data, .obj []), ("items".data, .arr [.obj []])] =
      .error (.item 0 .badName) := by
  have h := claim_C9.2.1 [("template".data, .obj []), ("items".data, .arr [.obj []])]
    [] [.obj []] 0 .badName rfl rfl
  exact h.mpr rfl

end IconKitchen
